import Mathlib

/-!
Formal model of the FIFO capital-gains engine (class FIFOQueue) of the
Pakfolio repository, together with proofs and refutations of the
specification's claims about it.

Modelling conventions:
* JavaScript numbers are modelled as exact rationals.  All quantities the
  claims talk about (prices, fees, quantities, cost bases) are produced by
  the four arithmetic operations on decimal inputs, so the rational model
  matches the source computations symbolically.
* Dates are modelled as integers counting whole days, with day 0 being a
  Thursday (the Unix epoch), so the day of the week of day d is
  (d + 4) mod 7, exactly as returned by Date.getDay.  The engine only ever
  reads a date's day-of-week and differences of dates in whole days.
* The optional feePercent argument is an Option: none models all the
  inputs (undefined, null, empty string, NaN, infinities) that the source
  function _normalizeFeePercent replaces by the default, except negative
  numbers, which are modelled explicitly.
* JavaScript objects used as symbol-keyed maps are modelled as association
  lists in key-insertion order: assigning to a fresh key appends it,
  assigning to an existing key keeps its position, exactly the object's
  enumeration semantics.
* Thrown exceptions are modelled by an error sum; every operation returns
  its result together with the post-call state, the state at the point of
  a throw being the state the caller observes afterwards.
* The source stores several always-identical aliases in each lot
  (cost, costPerShare, purchasePrice mirror price; value and tax and
  originalTransaction are never read by any operation modelled here).
  The model keeps one canonical field per datum.  The wall-clock
  timestamp field of transactions and the exportDate field of snapshots
  are write-only and not modelled.
-/

namespace Pakfolio

/-- Day of week of integer day d (0 = Sunday .. 6 = Saturday); day 0 is a
Thursday, mirroring Date.getDay on the Unix epoch. -/
def dayOfWeek (d : Int) : Int := (d + 4) % 7

/-- True on Monday..Friday: the check dayOfWeek ≠ 0 (Sunday) and ≠ 6
(Saturday) used by calculateSettlementDate. -/
def isBusinessDay (d : Int) : Bool := dayOfWeek d != 0 && dayOfWeek d != 6

/-- Literal model of the while-loop of FIFOQueue.calculateSettlementDate:
starting at day d with daysAdded business days already counted, advance one
day per iteration, counting only business days, until two are counted.
The loop of the source has no bound, so the model carries explicit fuel and
returns none if the fuel is exhausted; settleLoop_terminates shows fuel 8
always suffices. -/
def settleLoop : Nat → Int → Nat → Option Int
  | 0, d, k => if 2 ≤ k then some d else none
  | fuel + 1, d, k =>
    if 2 ≤ k then some d
    else
      if isBusinessDay (d + 1) then settleLoop fuel (d + 1) (k + 1)
      else settleLoop fuel (d + 1) k

/-- First business day strictly after d: the value the settlement loop
advances to when it counts one more business day. -/
def nextBusinessDay (d : Int) : Int :=
  if isBusinessDay (d + 1) then d + 1
  else if isBusinessDay (d + 2) then d + 2
  else d + 3

/-- Settlement date of a trade on day d: two business days after d
(FIFOQueue.calculateSettlementDate; proved equal to the source loop in the
theorem for claim C10). -/
def calculateSettlementDate (d : Int) : Int :=
  nextBusinessDay (nextBusinessDay d)

/-- Uppercasing of symbols and transaction types (the toUpperCase calls of
the source): Char.toUpper applied to every character.  This is what
String.toUpper of the standard library does, restated over the character
list so that the kernel can evaluate it on concrete inputs. -/
def upper (s : String) : String := String.mk (s.data.map Char.toUpper)

/-- Model of FIFOQueue._normalizeFeePercent: the default 0.5 replaces an
absent or negative fee. -/
def normalizeFeePercent : Option ℚ → ℚ
  | none => 1 / 2
  | some n => if n < 0 then 1 / 2 else n

/-- Model of FIFOQueue._getAdjustedPrice: a BUY inflates the price by the
fee, a SELL deflates it, any other type leaves it unchanged. -/
def getAdjustedPrice (type : String) (price : ℚ) (feePercent : Option ℚ) : ℚ :=
  let pct := normalizeFeePercent feePercent / 100
  if type = "BUY" then price * (1 + pct)
  else if type = "SELL" then price * (1 - pct)
  else price

/-- Lot of the holdings queue, as created by FIFOQueue._processBuy.
price is the fee-adjusted (net) cost per share; the source's aliases of it
are not duplicated (see the file comment). -/
structure Lot where
  quantity : ℚ
  price : ℚ
  grossPrice : ℚ
  feePercent : ℚ
  purchaseDate : Int
  remainingQuantity : ℚ
  deriving Repr, DecidableEq

/-- Transaction audit record built by FIFOQueue.addTransaction. -/
structure Transaction where
  id : Nat
  type : String
  symbol : String
  quantity : ℚ
  price : ℚ
  adjustedPrice : ℚ
  feePercent : ℚ
  tradeDate : Int
  settlementDate : Int
  totalValue : ℚ
  adjustedTotalValue : ℚ
  deriving Repr, DecidableEq

/-- Holding period between two settlement dates (FIFOQueue.getHoldingPeriod).
days is the exact whole-day difference; isLongTerm is the ≥ 365 days flag.
The months/years/formatted fields of the source are calendar decompositions
of the same two dates used only for display; no claim mentions them and the
day-count model cannot express calendar months, so they are not modelled. -/
structure HoldingPeriod where
  days : Int
  isLongTerm : Bool
  deriving Repr, DecidableEq

/-- Model of FIFOQueue.getHoldingPeriod on day-number dates. -/
def getHoldingPeriod (purchaseDate sellDate : Int) : HoldingPeriod :=
  { days := sellDate - purchaseDate
    isLongTerm := decide (365 ≤ sellDate - purchaseDate) }

/-- Lot consumption record pushed onto lotsUsed by FIFOQueue._processSell
and FIFOQueue.calculateSale. -/
structure LotUsed where
  purchaseDate : Int
  quantity : ℚ
  costPerShare : ℚ
  costBasis : ℚ
  holdingPeriod : HoldingPeriod
  deriving Repr, DecidableEq

/-- Realized (or simulated) sale record.  isSimulation is false for the
records _processSell appends (the field is absent, hence falsy, in the
source) and true for calculateSale results. -/
structure SaleResult where
  symbol : String
  quantitySold : ℚ
  sellPrice : ℚ
  grossSellPrice : ℚ
  feePercent : ℚ
  saleProceeds : ℚ
  totalCostBasis : ℚ
  capitalGain : ℚ
  lotsUsed : List LotUsed
  saleDate : Int
  isSimulation : Bool
  deriving Repr, DecidableEq

/-- Whole engine state: the three stores of the FIFOQueue constructor.
holdings is the symbol-keyed object, as an insertion-ordered association
list. -/
structure FIFOQueue where
  holdings : List (String × List Lot)
  transactions : List Transaction
  realizedGains : List SaleResult
  deriving Repr, DecidableEq

/-- Fresh engine state (the FIFOQueue constructor, also reset()). -/
def emptyQueue : FIFOQueue := ⟨[], [], []⟩

/-- Lookup of this.holdings[symbol]: none models an absent key. -/
def getLots : List (String × List Lot) → String → Option (List Lot)
  | [], _ => none
  | (s, ls) :: rest, sym => if s = sym then some ls else getLots rest sym

/-- Assignment this.holdings[symbol] = lots: an existing key keeps its
position, a fresh key is appended, as in JavaScript object assignment. -/
def setLots : List (String × List Lot) → String → List Lot → List (String × List Lot)
  | [], sym, ls => [(sym, ls)]
  | (s, l0) :: rest, sym, ls =>
    if s = sym then (sym, ls) :: rest else (s, l0) :: setLots rest sym ls

/-- Lots currently stored for a symbol ([] both for an absent key and for a
present key holding an empty array). -/
def lotsOf (Q : FIFOQueue) (sym : String) : List Lot :=
  (getLots Q.holdings sym).getD []

/-- Total remaining quantity over a lot list (the reduce in _processSell
and calculateSale). -/
def totalAvailable (lots : List Lot) : ℚ :=
  (lots.map (fun l => l.remainingQuantity)).sum

/-- Errors thrown by the engine.  noHoldings models the throws for a
symbol with no (or only an empty array of) lots; insufficient models the
throws for a request exceeding the total available quantity.  The two
functions that throw them differ only in message wording, not modelled. -/
inductive SellError where
  | noHoldings (symbol : String)
  | insufficient (symbol : String) (requested available : ℚ)
  deriving Repr, DecidableEq

/-- Value returned by addTransaction: the transaction record on the BUY
and unrecognized-type paths, the sale result on the SELL path. -/
inductive TxResult where
  | tx (t : Transaction)
  | sale (s : SaleResult)
  deriving Repr, DecidableEq

/-- Consumption record built inside the FIFO loop for taking take shares
from lot, against sale settlement date sellSettle. -/
def mkLotUsed (sellSettle : Int) (lot : Lot) (take : ℚ) : LotUsed :=
  { purchaseDate := lot.purchaseDate
    quantity := take
    costPerShare := lot.price
    costBasis := take * lot.price
    holdingPeriod := getHoldingPeriod lot.purchaseDate sellSettle }

/-- FIFO consumption loop of FIFOQueue._processSell: walk the lot list in
order while shares remain to sell, take min(lot.remainingQuantity, rest)
from each lot (skipping lots that would contribute nothing, the
sharesToTake > 0 guard), decrementing consumed lots in place.  Returns the
lotsUsed records and the updated lot list, before the zero-lot filter. -/
def consumeLots (sellSettle : Int) (q : ℚ) : List Lot → List LotUsed × List Lot
  | [] => ([], [])
  | lot :: rest =>
    if 0 < q then
      let take := min lot.remainingQuantity q
      if 0 < take then
        let out := consumeLots sellSettle (q - take) rest
        (mkLotUsed sellSettle lot take :: out.1,
         { lot with remainingQuantity := lot.remainingQuantity - take } :: out.2)
      else
        let out := consumeLots sellSettle q rest
        (out.1, lot :: out.2)
    else ([], lot :: rest)

/-- Read-only variant of the same loop used by FIFOQueue.calculateSale:
builds the lotsUsed records without touching the lots. -/
def simulateConsume (sellSettle : Int) (q : ℚ) : List Lot → List LotUsed
  | [] => []
  | lot :: rest =>
    if 0 < q then
      let take := min lot.remainingQuantity q
      if 0 < take then
        mkLotUsed sellSettle lot take :: simulateConsume sellSettle (q - take) rest
      else
        simulateConsume sellSettle q rest
    else []

/-- Model of FIFOQueue._processBuy: validate symbol, quantity and the
fee-adjusted price; on failure only log and return (no throw, no lot);
otherwise append a new lot at the tail of the symbol's queue.  The
grossPrice field falls back to the adjusted price when the quoted price is
0 (the JavaScript || fallback on a falsy number). -/
def processBuy (Q : FIFOQueue) (t : Transaction) : FIFOQueue :=
  let symbol := t.symbol
  let quantity := t.quantity
  let price := t.adjustedPrice
  if symbol = "" ∨ quantity ≤ 0 ∨ price ≤ 0 then Q
  else
    let lots := (getLots Q.holdings symbol).getD []
    let lot : Lot :=
      { quantity := quantity
        price := price
        grossPrice := if t.price = 0 then price else t.price
        feePercent := t.feePercent
        purchaseDate := t.settlementDate
        remainingQuantity := quantity }
    { Q with holdings := setLots Q.holdings symbol (lots ++ [lot]) }

/-- Model of FIFOQueue._processSell: throw when the symbol has no lots
(the source tests absent key or empty array; both mean lotsOf is empty) or
the total available is below the requested quantity (both checks precede
every mutation, so the state returned with an error is the input state);
otherwise consume lots FIFO, drop fully consumed lots, and append the
realized sale. -/
def processSell (Q : FIFOQueue) (t : Transaction) :
    Except SellError SaleResult × FIFOQueue :=
  let lots := lotsOf Q t.symbol
  if lots = [] then (Except.error (SellError.noHoldings t.symbol), Q)
  else
    let avail := totalAvailable lots
    if avail < t.quantity then
      (Except.error (SellError.insufficient t.symbol t.quantity avail), Q)
    else
      let out := consumeLots t.settlementDate t.quantity lots
      let surviving := out.2.filter (fun l => 0 < l.remainingQuantity)
      let saleProceeds := t.quantity * t.adjustedPrice
      let totalCB := (out.1.map (fun u => u.costBasis)).sum
      let sale : SaleResult :=
        { symbol := t.symbol
          quantitySold := t.quantity
          sellPrice := t.adjustedPrice
          grossSellPrice := t.price
          feePercent := t.feePercent
          saleProceeds := saleProceeds
          totalCostBasis := totalCB
          capitalGain := saleProceeds - totalCB
          lotsUsed := out.1
          saleDate := t.settlementDate
          isSimulation := false }
      (Except.ok sale,
       { Q with
          holdings := setLots Q.holdings t.symbol surviving
          realizedGains := Q.realizedGains ++ [sale] })

/-- Transaction record built at the top of FIFOQueue.addTransaction: the
id is the current trail length plus one, the type and symbol are
uppercased, the fee is normalized and the fee-adjusted price derived. -/
def mkTx (Q : FIFOQueue) (type symbol : String) (quantity price : ℚ)
    (date : Int) (feePercent : Option ℚ) : Transaction :=
  let settlementDate := calculateSettlementDate date
  let txType := upper type
  let appliedFeePercent := normalizeFeePercent feePercent
  let adjustedPrice := getAdjustedPrice txType price (some appliedFeePercent)
  { id := Q.transactions.length + 1
    type := txType
    symbol := upper symbol
    quantity := quantity
    price := price
    adjustedPrice := adjustedPrice
    feePercent := appliedFeePercent
    tradeDate := date
    settlementDate := settlementDate
    totalValue := quantity * price
    adjustedTotalValue := quantity * adjustedPrice }

/-- Model of FIFOQueue.addTransaction: build the transaction record, then
dispatch.  A BUY runs _processBuy and then pushes the record onto the
trail; a SELL returns the _processSell result directly, skipping the push
(the source returns before reaching it); any other type just pushes the
record. -/
def addTransaction (Q : FIFOQueue) (type symbol : String) (quantity price : ℚ)
    (date : Int) (feePercent : Option ℚ) :
    Except SellError TxResult × FIFOQueue :=
  let t := mkTx Q type symbol quantity price date feePercent
  if upper type = "BUY" then
    let Q1 := processBuy Q t
    (Except.ok (TxResult.tx t), { Q1 with transactions := Q1.transactions ++ [t] })
  else if upper type = "SELL" then
    let out := processSell Q t
    (out.1.map TxResult.sale, out.2)
  else
    (Except.ok (TxResult.tx t), { Q with transactions := Q.transactions ++ [t] })

/-- Model of FIFOQueue.calculateSale: same normalization, same two failure
checks and same FIFO consumption as the SELL path, but without mutating any
store; the result is flagged isSimulation.  The unchanged state is returned
alongside to make the absence of mutation explicit. -/
def calculateSale (Q : FIFOQueue) (symbol : String) (quantity sellPrice : ℚ)
    (sellDate : Int) (feePercent : Option ℚ) :
    Except SellError SaleResult × FIFOQueue :=
  let sym := upper symbol
  let settlementDate := calculateSettlementDate sellDate
  let appliedFeePercent := normalizeFeePercent feePercent
  let adjustedSellPrice := getAdjustedPrice "SELL" sellPrice (some appliedFeePercent)
  let lots := (getLots Q.holdings sym).getD []
  if lots = [] then (Except.error (SellError.noHoldings sym), Q)
  else
    let avail := totalAvailable lots
    if avail < quantity then
      (Except.error (SellError.insufficient sym quantity avail), Q)
    else
      let used := simulateConsume settlementDate quantity lots
      let saleProceeds := quantity * adjustedSellPrice
      let totalCB := (used.map (fun u => u.costBasis)).sum
      (Except.ok
        { symbol := sym
          quantitySold := quantity
          sellPrice := adjustedSellPrice
          grossSellPrice := sellPrice
          feePercent := appliedFeePercent
          saleProceeds := saleProceeds
          totalCostBasis := totalCB
          capitalGain := saleProceeds - totalCB
          lotsUsed := used
          saleDate := settlementDate
          isSimulation := true }, Q)

/-- Entry of the per-symbol lot list in the getHoldings summary; the
always-equal price aliases of the source view are kept once. -/
structure HoldingLotView where
  quantity : ℚ
  remainingQuantity : ℚ
  price : ℚ
  purchaseDate : Int
  value : ℚ
  deriving Repr, DecidableEq

/-- Per-symbol summary returned by FIFOQueue.getHoldings. -/
structure SymbolSummary where
  totalQuantity : ℚ
  averageCost : ℚ
  totalCostBasis : ℚ
  lots : List HoldingLotView
  deriving Repr, DecidableEq

/-- Summary of one symbol's lots, or none when nothing remains (the
totalQuantity > 0 gate of getHoldings). -/
def summarizeLots (lots : List Lot) : Option SymbolSummary :=
  let validLots := lots.filter (fun l => 0 < l.remainingQuantity)
  let totalQuantity := (validLots.map (fun l => l.remainingQuantity)).sum
  if 0 < totalQuantity then
    let totalValue := (validLots.map (fun l => l.remainingQuantity * l.price)).sum
    some
      { totalQuantity := totalQuantity
        averageCost := totalValue / totalQuantity
        totalCostBasis := totalValue
        lots := validLots.map (fun l =>
          { quantity := l.remainingQuantity
            remainingQuantity := l.remainingQuantity
            price := l.price
            purchaseDate := l.purchaseDate
            value := l.remainingQuantity * l.price }) }
  else none

/-- Model of FIFOQueue.getHoldings: symbols in holdings order, each with
its summary, symbols with no remaining quantity omitted. -/
def getHoldings (Q : FIFOQueue) : List (String × SymbolSummary) :=
  Q.holdings.filterMap (fun p => (summarizeLots p.2).map (fun s => (p.1, s)))

/-- Model of FIFOQueue.getRealizedGains. -/
def getRealizedGains (Q : FIFOQueue) : List SaleResult := Q.realizedGains

/-- Model of FIFOQueue.getTransactions. -/
def getTransactions (Q : FIFOQueue) : List Transaction := Q.transactions

/-- Snapshot produced by FIFOQueue.exportData: the three stores verbatim
(the write-only exportDate timestamp is not modelled).  Since the snapshot
reuses the live record types, every field a legacy snapshot might lack is
present; the corresponding undefined-checks of importData are therefore
always false on these snapshots and noted in the importData comment. -/
structure ExportedData where
  holdings : List (String × List Lot)
  transactions : List Transaction
  realizedGains : List SaleResult
  deriving Repr, DecidableEq

/-- Model of FIFOQueue.exportData. -/
def exportData (Q : FIFOQueue) : ExportedData :=
  { holdings := Q.holdings
    transactions := Q.transactions
    realizedGains := Q.realizedGains }

/-- Migration of one stored lot inside importData.  On a snapshot of the
modelled type grossPrice and feePercent are always present, so the
undefined backfills of the source are vacuous; the remaining live logic is
the legacy-format reconciliation: when the stored net price still equals
the gross price (and the fee is nonnegative), the net price is recomputed
as gross * (1 + fee/100). -/
def importLot (lot : Lot) : Lot :=
  let pct := lot.feePercent / 100
  if 0 ≤ pct ∧ lot.price = lot.grossPrice then
    { lot with price := lot.grossPrice * (1 + pct) }
  else lot

/-- Migration of one stored transaction inside importData: a negative fee
percent is replaced by the 0.5 default (the absent/NaN cases cannot occur
on the modelled snapshot type); adjustedPrice and adjustedTotalValue are
present and therefore kept. -/
def importTransaction (t : Transaction) : Transaction :=
  { t with feePercent := if t.feePercent < 0 then 1 / 2 else t.feePercent }

/-- Migration of one stored realized sale inside importData: normalize the
fee, keep the stored grossSellPrice (present on the modelled snapshot);
re-deflate sellPrice only when it still equals grossSellPrice; then
unconditionally treat every consumption record's costPerShare as a gross
cost, inflating it by (1 + fee/100) and rebuilding its costBasis, and
finally recompute totalCostBasis, saleProceeds and capitalGain from the
reconciled values. -/
def importSale (g : SaleResult) : SaleResult :=
  let feePercent := if g.feePercent < 0 then 1 / 2 else g.feePercent
  let pct := feePercent / 100
  let sellPrice :=
    if g.sellPrice = g.grossSellPrice then g.grossSellPrice * (1 - pct)
    else g.sellPrice
  let lotsUsed := g.lotsUsed.map (fun lot =>
    { lot with
        costPerShare := lot.costPerShare * (1 + pct)
        costBasis := lot.quantity * (lot.costPerShare * (1 + pct)) })
  let totalCostBasis := (lotsUsed.map (fun l => l.costBasis)).sum
  let saleProceeds := g.quantitySold * sellPrice
  { g with
      feePercent := feePercent
      sellPrice := sellPrice
      lotsUsed := lotsUsed
      totalCostBasis := totalCostBasis
      saleProceeds := saleProceeds
      capitalGain := saleProceeds - totalCostBasis }

/-- Model of FIFOQueue.importData on a snapshot of the exported type: each
store is rebuilt from the snapshot through its migration map.  The source
mutates this in place; the model returns the resulting state. -/
def importData (data : ExportedData) : FIFOQueue :=
  { holdings := data.holdings.map (fun p => (p.1, p.2.map importLot))
    transactions := data.transactions.map importTransaction
    realizedGains := data.realizedGains.map importSale }


/-! ### Derived forms of the operations used in lemma statements -/

/-- LotsUsed records of a successful _processSell on state Q. -/
def sellLotsUsed (Q : FIFOQueue) (t : Transaction) : List LotUsed :=
  (consumeLots t.settlementDate t.quantity (lotsOf Q t.symbol)).1

/-- Lot list left for the symbol by a successful _processSell (consumed
remainders with the fully consumed lots filtered out). -/
def sellSurviving (Q : FIFOQueue) (t : Transaction) : List Lot :=
  ((consumeLots t.settlementDate t.quantity (lotsOf Q t.symbol)).2).filter
    (fun l => 0 < l.remainingQuantity)

/-- Sale record appended and returned by a successful _processSell. -/
def sellSale (Q : FIFOQueue) (t : Transaction) : SaleResult :=
  { symbol := t.symbol
    quantitySold := t.quantity
    sellPrice := t.adjustedPrice
    grossSellPrice := t.price
    feePercent := t.feePercent
    saleProceeds := t.quantity * t.adjustedPrice
    totalCostBasis := ((sellLotsUsed Q t).map (fun u => u.costBasis)).sum
    capitalGain :=
      t.quantity * t.adjustedPrice - ((sellLotsUsed Q t).map (fun u => u.costBasis)).sum
    lotsUsed := sellLotsUsed Q t
    saleDate := t.settlementDate
    isSimulation := false }

/-- Lot appended by a valid BUY built from the raw call arguments. -/
def buyLot (s : String) (q p : ℚ) (d : Int) (f : Option ℚ) : Lot :=
  let nf := normalizeFeePercent f
  let adj := getAdjustedPrice "BUY" p (some nf)
  { quantity := q
    price := adj
    grossPrice := if p = 0 then adj else p
    feePercent := nf
    purchaseDate := calculateSettlementDate d
    remainingQuantity := q }

/-- User-level operation fed to addTransaction. -/
inductive Op where
  | buy (symbol : String) (quantity price : ℚ) (date : Int) (fee : Option ℚ)
  | sell (symbol : String) (quantity price : ℚ) (date : Int) (fee : Option ℚ)
  deriving Repr, DecidableEq

/-- One addTransaction call for the operation. -/
def Op.apply : Op → FIFOQueue → Except SellError TxResult × FIFOQueue
  | Op.buy s q p d f, Q => addTransaction Q "BUY" s q p d f
  | Op.sell s q p d f, Q => addTransaction Q "SELL" s q p d f

/-- Run a list of operations from a state; none when some operation
throws. -/
def runOps : List Op → FIFOQueue → Option FIFOQueue
  | [], Q => some Q
  | o :: rest, Q =>
    match o.apply Q with
    | (Except.ok _, Q1) => runOps rest Q1
    | (Except.error _, _) => none

/-- The validity envelope of the specification for the operations: a BUY
carries a nonempty symbol, positive quantity and positive price; a SELL a
positive quantity. -/
def Op.valid : Op → Prop
  | Op.buy s q p _ _ => upper s ≠ "" ∧ 0 < q ∧ 0 < p
  | Op.sell _ q _ _ _ => 0 < q

instance (o : Op) : Decidable o.valid := by
  cases o with
  | buy s q p d f => exact inferInstanceAs (Decidable (_ ∧ _ ∧ _))
  | sell s q p d f => exact inferInstanceAs (Decidable (_ < _))

/-- Quantity a single operation buys on a symbol (after uppercasing). -/
def buyQty (sym : String) : Op → ℚ
  | Op.buy s q _ _ _ => if upper s = sym then q else 0
  | Op.sell _ _ _ _ _ => 0

/-- Quantity a single operation sells on a symbol (after uppercasing). -/
def sellQty (sym : String) : Op → ℚ
  | Op.buy _ _ _ _ _ => 0
  | Op.sell s q _ _ _ => if upper s = sym then q else 0

/-- Total quantity bought on a symbol over an operation list. -/
def boughtTotal (sym : String) (ops : List Op) : ℚ := (ops.map (buyQty sym)).sum

/-- Total quantity sold on a symbol over an operation list. -/
def soldTotal (sym : String) (ops : List Op) : ℚ := (ops.map (sellQty sym)).sum

/-- Every stored lot has a strictly positive remainder. -/
def goodQueue (Q : FIFOQueue) : Prop :=
  ∀ sym, ∀ l ∈ lotsOf Q sym, 0 < l.remainingQuantity

/-- Arguments of one BUY call in a buy-only prefix of a history. -/
structure BuySpec where
  quantity : ℚ
  price : ℚ
  date : Int
  fee : Option ℚ
  deriving Repr, DecidableEq

/-- Lot that the BUY described by b appends for symbol s. -/
def buySpecLot (s : String) (b : BuySpec) : Lot :=
  buyLot s b.quantity b.price b.date b.fee

/-- Issue one BUY per list entry, in order, on a fixed symbol. -/
def runBuys (sym : String) : List BuySpec → FIFOQueue → FIFOQueue
  | [], Q => Q
  | b :: rest, Q =>
    runBuys sym rest (addTransaction Q "BUY" sym b.quantity b.price b.date b.fee).2

/-- Concrete state for witnesses: one BUY of 10 shares of A at 5. -/
def qA : FIFOQueue := (addTransaction emptyQueue "BUY" "A" 10 5 0 none).2

/-- Concrete state exercising the snapshot round trip: BUY 100 OGDC at
100 with fee 0.5 on day 0, then SELL 50 OGDC at 150 with fee 0.5 on
day 10. -/
def c1State : FIFOQueue :=
  (addTransaction (addTransaction emptyQueue "BUY" "OGDC" 100 100 0 (some (1 / 2))).2
    "SELL" "OGDC" 50 150 10 (some (1 / 2))).2

/-- Decidable equality for Except results (not provided by the core
library), used to evaluate the model at concrete inputs. -/
instance {α β : Type} [DecidableEq α] [DecidableEq β] :
    DecidableEq (Except α β) := fun x y =>
  match x, y with
  | Except.error a, Except.error b =>
    if h : a = b then isTrue (by rw [h])
    else isFalse (fun he => h (by injection he))
  | Except.error _, Except.ok _ => isFalse (fun he => Except.noConfusion he)
  | Except.ok _, Except.error _ => isFalse (fun he => Except.noConfusion he)
  | Except.ok a, Except.ok b =>
    if h : a = b then isTrue (by rw [h])
    else isFalse (fun he => h (by injection he))

/-- Sale record produced by selling 4 shares of A at 6 on day 1 from qA
(used to witness the sale identities at a concrete input). -/
def qASale : SaleResult :=
  { symbol := "A"
    quantitySold := 4
    sellPrice := 597 / 100
    grossSellPrice := 6
    feePercent := 1 / 2
    saleProceeds := 597 / 25
    totalCostBasis := 201 / 10
    capitalGain := 189 / 50
    lotsUsed := [{ purchaseDate := 4
                   quantity := 4
                   costPerShare := 201 / 40
                   costBasis := 201 / 10
                   holdingPeriod := { days := 1, isLongTerm := false } }]
    saleDate := 5
    isSimulation := false }

/-- State after buying 5 of A at 3 on day 0 and selling 2 at 4 on day 1
(used to witness the conservation claim at a concrete history). -/
def q8Final : FIFOQueue :=
  { holdings := [("A", [{ quantity := 5
                          price := 603 / 200
                          grossPrice := 3
                          feePercent := 1 / 2
                          purchaseDate := 4
                          remainingQuantity := 3 }])]
    transactions := [{ id := 1
                       type := "BUY"
                       symbol := "A"
                       quantity := 5
                       price := 3
                       adjustedPrice := 603 / 200
                       feePercent := 1 / 2
                       tradeDate := 0
                       settlementDate := 4
                       totalValue := 15
                       adjustedTotalValue := 603 / 40 }]
    realizedGains := [{ symbol := "A"
                        quantitySold := 2
                        sellPrice := 199 / 50
                        grossSellPrice := 4
                        feePercent := 1 / 2
                        saleProceeds := 199 / 25
                        totalCostBasis := 603 / 100
                        capitalGain := 193 / 100
                        lotsUsed := [{ purchaseDate := 4
                                       quantity := 2
                                       costPerShare := 603 / 200
                                       costBasis := 603 / 100
                                       holdingPeriod := { days := 1, isLongTerm := false } }]
                        saleDate := 5
                        isSimulation := false }] }

/-! ### Basic lemmas about the embedded operations -/

theorem upper_BUY : upper "BUY" = "BUY" := by decide

theorem upper_SELL : upper "SELL" = "SELL" := by decide

theorem normalizeFeePercent_nonneg (f : Option ℚ) : 0 ≤ normalizeFeePercent f := by
  cases f with
  | none => norm_num [normalizeFeePercent]
  | some n =>
    rcases lt_or_le n 0 with h | h
    · simp only [normalizeFeePercent, if_pos h]
      norm_num
    · simp only [normalizeFeePercent, if_neg (not_lt.mpr h)]
      exact h

theorem getLots_setLots_self (h : List (String × List Lot)) (s : String)
    (v : List Lot) : getLots (setLots h s v) s = some v := by
  induction h with
  | nil => simp [setLots, getLots]
  | cons p rest ih =>
    obtain ⟨s0, ls0⟩ := p
    by_cases hp : s0 = s
    · simp [setLots, hp, getLots]
    · simp [setLots, hp, getLots, ih]

theorem getLots_setLots_ne (h : List (String × List Lot)) (s x : String)
    (v : List Lot) (hx : x ≠ s) : getLots (setLots h s v) x = getLots h x := by
  have hsx : ¬s = x := fun he => hx he.symm
  induction h with
  | nil => simp [setLots, getLots, hsx]
  | cons p rest ih =>
    obtain ⟨s0, ls0⟩ := p
    by_cases hp : s0 = s
    · subst hp
      simp [setLots, getLots, hsx]
    · simp [setLots, hp, getLots, ih]

theorem processBuy_transactions (Q : FIFOQueue) (t : Transaction) :
    (processBuy Q t).transactions = Q.transactions := by
  unfold processBuy
  by_cases h : t.symbol = "" ∨ t.quantity ≤ 0 ∨ t.adjustedPrice ≤ 0 <;> simp [h]

theorem processBuy_realizedGains (Q : FIFOQueue) (t : Transaction) :
    (processBuy Q t).realizedGains = Q.realizedGains := by
  unfold processBuy
  by_cases h : t.symbol = "" ∨ t.quantity ≤ 0 ∨ t.adjustedPrice ≤ 0 <;> simp [h]

/-- The read-only loop of calculateSale builds exactly the lotsUsed
component of the mutating loop of _processSell. -/
theorem simulateConsume_eq (d : Int) (q : ℚ) (lots : List Lot) :
    simulateConsume d q lots = (consumeLots d q lots).1 := by
  induction lots generalizing q with
  | nil => simp [simulateConsume, consumeLots]
  | cons lot rest ih =>
    by_cases hq : 0 < q
    · by_cases ht : 0 < min lot.remainingQuantity q <;>
        simp [simulateConsume, consumeLots, hq, ht, ih]
    · simp [simulateConsume, consumeLots, hq]

/-- A nonpositive request consumes nothing and leaves the lots untouched. -/
theorem consumeLots_nonpos (d : Int) (q : ℚ) (lots : List Lot) (hq : ¬0 < q) :
    consumeLots d q lots = ([], lots) := by
  cases lots with
  | nil => simp [consumeLots]
  | cons lot rest => simp [consumeLots, hq]

/-- Quantity taken by the FIFO loop: when the request is nonnegative and
within the total available, the consumed quantities sum exactly to the
request.  No assumption on individual lots is needed: lots with
nonpositive remainder are skipped by the sharesToTake > 0 guard and only
enlarge the surplus. -/
theorem consumeLots_quantity_sum (d : Int) :
    ∀ (lots : List Lot) (q : ℚ), 0 ≤ q → q ≤ totalAvailable lots →
      (((consumeLots d q lots).1).map (fun u => u.quantity)).sum = q := by
  intro lots
  induction lots with
  | nil =>
    intro q h0 hle
    simp only [totalAvailable, List.map_nil, List.sum_nil] at hle
    have : q = 0 := le_antisymm hle h0
    simp [this, consumeLots]
  | cons lot rest ih =>
    intro q h0 hle
    by_cases hq : 0 < q
    · have htot : q ≤ lot.remainingQuantity + totalAvailable rest := by
        simpa [totalAvailable] using hle
      by_cases ht : 0 < min lot.remainingQuantity q
      · simp only [consumeLots, hq, if_true, ht, List.map_cons, List.sum_cons, mkLotUsed]
        set take := min lot.remainingQuantity q with hTake
        by_cases hrem : q - take = 0
        · have hz : (consumeLots d (q - take) rest).1 = [] := by
            rw [hrem, consumeLots_nonpos d 0 rest (by norm_num)]
          rw [hz]
          simp only [List.map_nil, List.sum_nil, add_zero]
          linarith
        · have htlt : take < q := by
            rcases lt_or_eq_of_le (min_le_right lot.remainingQuantity q) with h | h
            · exact hTake ▸ h
            · exact absurd (by rw [hTake, h]; ring) hrem
          have htr : take = lot.remainingQuantity := by
            rcases le_total q lot.remainingQuantity with h | h
            · exact absurd (hTake ▸ min_eq_right h) (ne_of_lt htlt)
            · rw [hTake, min_eq_left h]
          have hrec := ih (q - take) (by linarith) (by rw [htr]; linarith)
          rw [hrec]; ring
      · push_neg at ht
        have hrem : lot.remainingQuantity ≤ 0 := by
          by_contra hpos
          push_neg at hpos
          exact absurd (lt_min hpos hq) (not_lt.mpr ht)
        simp only [consumeLots, hq, if_true, if_neg (not_lt.mpr ht)]
        exact ih q h0 (by linarith)
    · have : q = 0 := le_antisymm (not_lt.mp hq) h0
      simp [this, consumeLots_nonpos d 0 _ (by norm_num)]

/-- The total remaining quantity drops by exactly the consumed quantity. -/
theorem consumeLots_totalAvailable (d : Int) :
    ∀ (lots : List Lot) (q : ℚ),
      totalAvailable (consumeLots d q lots).2 =
        totalAvailable lots - (((consumeLots d q lots).1).map (fun u => u.quantity)).sum := by
  intro lots
  induction lots with
  | nil => intro q; simp [consumeLots, totalAvailable]
  | cons lot rest ih =>
    intro q
    by_cases hq : 0 < q
    · by_cases ht : 0 < min lot.remainingQuantity q
      · simp only [consumeLots, hq, if_true, ht, List.map_cons, List.sum_cons, mkLotUsed,
          totalAvailable]
        have := ih (q - min lot.remainingQuantity q)
        simp only [totalAvailable] at this
        rw [this]; ring
      · simp only [consumeLots, hq, if_true, if_neg ht, totalAvailable, List.map_cons,
          List.sum_cons]
        have := ih q
        simp only [totalAvailable] at this
        rw [this]; ring
    · simp [consumeLots_nonpos d q _ hq]

/-- The loop never drives a remainder negative: every lot in the output
keeps a nonnegative remainder when every input lot had one. -/
theorem consumeLots_nonneg (d : Int) :
    ∀ (lots : List Lot) (q : ℚ), (∀ l ∈ lots, 0 ≤ l.remainingQuantity) →
      ∀ l ∈ (consumeLots d q lots).2, 0 ≤ l.remainingQuantity := by
  intro lots
  induction lots with
  | nil => intro q _ l hl; simp [consumeLots] at hl
  | cons lot rest ih =>
    intro q hin l hl
    by_cases hq : 0 < q
    · by_cases ht : 0 < min lot.remainingQuantity q
      · simp only [consumeLots, hq, if_true, ht, List.mem_cons] at hl
        rcases hl with hl | hl
        · subst hl
          simp only
          have := min_le_left lot.remainingQuantity q
          linarith
        · exact ih _ (fun x hx => hin x (List.mem_cons_of_mem _ hx)) l hl
      · simp only [consumeLots, hq, if_true, if_neg ht, List.mem_cons] at hl
        rcases hl with hl | hl
        · exact hl ▸ hin lot (List.mem_cons_self _ _)
        · exact ih _ (fun x hx => hin x (List.mem_cons_of_mem _ hx)) l hl
    · rw [consumeLots_nonpos d q _ hq] at hl
      exact hin l hl

/-- Filtering out the zero-remainder lots keeps the total remaining
quantity, provided no remainder is negative. -/
theorem filter_totalAvailable (lots : List Lot)
    (h : ∀ l ∈ lots, 0 ≤ l.remainingQuantity) :
    totalAvailable (lots.filter (fun l => decide (0 < l.remainingQuantity))) =
      totalAvailable lots := by
  induction lots with
  | nil => simp [totalAvailable]
  | cons lot rest ih =>
    have h0 := h lot (List.mem_cons_self _ _)
    have hr := ih (fun x hx => h x (List.mem_cons_of_mem _ hx))
    by_cases hp : 0 < lot.remainingQuantity
    · rw [List.filter_cons, if_pos (by simpa using hp)]
      simp only [totalAvailable, List.map_cons, List.sum_cons] at hr ⊢
      rw [hr]
    · rw [List.filter_cons, if_neg (by simpa using hp)]
      have hz : lot.remainingQuantity = 0 := le_antisymm (not_lt.mp hp) h0
      simp only [totalAvailable, List.map_cons, List.sum_cons] at hr ⊢
      rw [hr, hz, zero_add]

/-- With nonnegative remainders, the lots dropped by the zero filter are
exactly those with remainder equal to zero. -/
theorem filter_pos_eq_filter_ne (lots : List Lot)
    (h : ∀ l ∈ lots, 0 ≤ l.remainingQuantity) :
    lots.filter (fun l => decide (0 < l.remainingQuantity)) =
      lots.filter (fun l => decide (l.remainingQuantity ≠ 0)) := by
  induction lots with
  | nil => rfl
  | cons lot rest ih =>
    have h0 := h lot (List.mem_cons_self _ _)
    have hr := ih (fun x hx => h x (List.mem_cons_of_mem _ hx))
    by_cases hp : 0 < lot.remainingQuantity
    · rw [List.filter_cons, List.filter_cons, if_pos (by simpa using hp),
        if_pos (by simpa using hp.ne'), hr]
    · have hz : lot.remainingQuantity = 0 := le_antisymm (not_lt.mp hp) h0
      rw [List.filter_cons, List.filter_cons, if_neg (by simpa using hp),
        if_neg (by simp [hz]), hr]

theorem mkLotUsed_purchaseDate (d : Int) (lot : Lot) (t : ℚ) :
    (mkLotUsed d lot t).purchaseDate = lot.purchaseDate := rfl

theorem mkLotUsed_costPerShare (d : Int) (lot : Lot) (t : ℚ) :
    (mkLotUsed d lot t).costPerShare = lot.price := rfl

theorem mkLotUsed_quantity (d : Int) (lot : Lot) (t : ℚ) :
    (mkLotUsed d lot t).quantity = t := rfl

/-- When every lot has a positive remainder, the loop never skips a lot:
the consumption records describe, in order, exactly the first
lotsUsed.length lots of the queue (same purchase dates, same net cost per
share). -/
theorem consumeLots_head_order (d : Int) :
    ∀ (lots : List Lot) (q : ℚ), (∀ l ∈ lots, 0 < l.remainingQuantity) →
      ((consumeLots d q lots).1.map (fun u => (u.purchaseDate, u.costPerShare)) =
        (lots.take (consumeLots d q lots).1.length).map (fun l => (l.purchaseDate, l.price))) := by
  intro lots
  induction lots with
  | nil => intro q _; simp [consumeLots]
  | cons lot rest ih =>
    intro q hg
    by_cases hq : 0 < q
    · have hpos : 0 < min lot.remainingQuantity q :=
        lt_min (hg lot (List.mem_cons_self _ _)) hq
      simp only [consumeLots, hq, if_true, hpos, List.map_cons, List.length_cons,
        List.take_succ_cons, mkLotUsed_purchaseDate, mkLotUsed_costPerShare]
      exact congrArg _ (ih _ (fun x hx => hg x (List.mem_cons_of_mem _ hx)))
    · rw [consumeLots_nonpos d q _ hq]
      simp

/-- When every lot has a positive remainder, every consumed lot except
possibly the last is taken in full: dropping the last consumption record,
the consumed quantities are exactly the remainders of the corresponding
head lots. -/
theorem consumeLots_full_head (d : Int) :
    ∀ (lots : List Lot) (q : ℚ), (∀ l ∈ lots, 0 < l.remainingQuantity) →
      (((consumeLots d q lots).1.map (fun u => u.quantity)).dropLast =
        (lots.map (fun l => l.remainingQuantity)).take ((consumeLots d q lots).1.length - 1)) := by
  intro lots
  induction lots with
  | nil => intro q _; simp [consumeLots]
  | cons lot rest ih =>
    intro q hg
    by_cases hq : 0 < q
    · have hpos : 0 < min lot.remainingQuantity q :=
        lt_min (hg lot (List.mem_cons_self _ _)) hq
      simp only [consumeLots, hq, if_true, hpos, List.map_cons, List.length_cons,
        mkLotUsed_quantity]
      rcases hrec : (consumeLots d (q - min lot.remainingQuantity q) rest).1 with _ | ⟨u, us⟩
      · simp [hrec]
      · have hq2 : 0 < q - min lot.remainingQuantity q := by
          by_contra hc
          rw [consumeLots_nonpos d _ rest hc] at hrec
          exact List.noConfusion hrec
        have hmin : min lot.remainingQuantity q = lot.remainingQuantity := by
          rcases le_total q lot.remainingQuantity with h | h
          · rw [min_eq_right h] at hq2
            linarith
          · exact min_eq_left h
        have := ih (q - min lot.remainingQuantity q)
          (fun x hx => hg x (List.mem_cons_of_mem _ hx))
        rw [hrec] at this
        simp only [List.map_cons, List.length_cons, Nat.add_sub_cancel] at this ⊢
        rw [List.dropLast_cons₂, this, List.take_succ_cons, hmin]
    · rw [consumeLots_nonpos d q _ hq]
      simp

/-! ### Characterizations of the SELL path -/

theorem mkTx_symbol (Q : FIFOQueue) (ty s : String) (q p : ℚ) (d : Int)
    (f : Option ℚ) : (mkTx Q ty s q p d f).symbol = upper s := rfl

theorem mkTx_quantity (Q : FIFOQueue) (ty s : String) (q p : ℚ) (d : Int)
    (f : Option ℚ) : (mkTx Q ty s q p d f).quantity = q := rfl

theorem mkTx_price (Q : FIFOQueue) (ty s : String) (q p : ℚ) (d : Int)
    (f : Option ℚ) : (mkTx Q ty s q p d f).price = p := rfl

theorem mkTx_adjustedPrice (Q : FIFOQueue) (ty s : String) (q p : ℚ) (d : Int)
    (f : Option ℚ) :
    (mkTx Q ty s q p d f).adjustedPrice =
      getAdjustedPrice (upper ty) p (some (normalizeFeePercent f)) := rfl

theorem mkTx_feePercent (Q : FIFOQueue) (ty s : String) (q p : ℚ) (d : Int)
    (f : Option ℚ) : (mkTx Q ty s q p d f).feePercent = normalizeFeePercent f := rfl

theorem mkTx_settlementDate (Q : FIFOQueue) (ty s : String) (q p : ℚ) (d : Int)
    (f : Option ℚ) : (mkTx Q ty s q p d f).settlementDate = calculateSettlementDate d := rfl

theorem mkTx_id (Q : FIFOQueue) (ty s : String) (q p : ℚ) (d : Int)
    (f : Option ℚ) : (mkTx Q ty s q p d f).id = Q.transactions.length + 1 := rfl

/-- Dispatch of addTransaction on the literal type "BUY". -/
theorem addTransaction_buy_eq (Q : FIFOQueue) (s : String) (q p : ℚ) (d : Int)
    (f : Option ℚ) :
    addTransaction Q "BUY" s q p d f =
      (Except.ok (TxResult.tx (mkTx Q "BUY" s q p d f)),
        { processBuy Q (mkTx Q "BUY" s q p d f) with
            transactions := Q.transactions ++ [mkTx Q "BUY" s q p d f] }) := by
  unfold addTransaction
  rw [if_pos (by decide : upper "BUY" = "BUY")]
  simp only [processBuy_transactions]

/-- Dispatch of addTransaction on the literal type "SELL": the result is
the _processSell outcome, and the transactions trail in particular is
whatever _processSell leaves (no push happens on this path). -/
theorem addTransaction_sell_eq (Q : FIFOQueue) (s : String) (q p : ℚ) (d : Int)
    (f : Option ℚ) :
    addTransaction Q "SELL" s q p d f =
      (((processSell Q (mkTx Q "SELL" s q p d f)).1).map TxResult.sale,
        (processSell Q (mkTx Q "SELL" s q p d f)).2) := by
  unfold addTransaction
  rw [if_neg (by decide : ¬upper "SELL" = "BUY"),
    if_pos (by decide : upper "SELL" = "SELL")]

theorem processSell_noHoldings (Q : FIFOQueue) (t : Transaction)
    (h : lotsOf Q t.symbol = []) :
    processSell Q t = (Except.error (SellError.noHoldings t.symbol), Q) := by
  unfold processSell
  rw [if_pos h]

theorem processSell_insufficient (Q : FIFOQueue) (t : Transaction)
    (h1 : lotsOf Q t.symbol ≠ [])
    (h2 : totalAvailable (lotsOf Q t.symbol) < t.quantity) :
    processSell Q t =
      (Except.error
        (SellError.insufficient t.symbol t.quantity (totalAvailable (lotsOf Q t.symbol))), Q) := by
  unfold processSell
  rw [if_neg h1, if_pos h2]

theorem processSell_success (Q : FIFOQueue) (t : Transaction)
    (h1 : lotsOf Q t.symbol ≠ [])
    (h2 : ¬totalAvailable (lotsOf Q t.symbol) < t.quantity) :
    processSell Q t =
      (Except.ok (sellSale Q t),
        { Q with
            holdings := setLots Q.holdings t.symbol (sellSurviving Q t)
            realizedGains := Q.realizedGains ++ [sellSale Q t] }) := by
  unfold processSell
  rw [if_neg h1, if_neg h2]
  rfl

/-- The SELL path throws exactly when the symbol has no lots or the total
available quantity is below the request. -/
theorem processSell_error_iff (Q : FIFOQueue) (t : Transaction) :
    (∃ e, (processSell Q t).1 = Except.error e) ↔
      (lotsOf Q t.symbol = [] ∨ totalAvailable (lotsOf Q t.symbol) < t.quantity) := by
  constructor
  · rintro ⟨e, he⟩
    by_cases h1 : lotsOf Q t.symbol = []
    · exact Or.inl h1
    · by_cases h2 : totalAvailable (lotsOf Q t.symbol) < t.quantity
      · exact Or.inr h2
      · rw [processSell_success Q t h1 h2] at he
        exact Except.noConfusion he
  · intro h
    by_cases h1 : lotsOf Q t.symbol = []
    · exact ⟨_, by rw [processSell_noHoldings Q t h1]⟩
    · rcases h with h | h2
      · exact absurd h h1
      · exact ⟨_, by rw [processSell_insufficient Q t h1 h2]⟩

/-- A throwing _processSell leaves the state untouched. -/
theorem processSell_error_state (Q : FIFOQueue) (t : Transaction) (e : SellError)
    (h : (processSell Q t).1 = Except.error e) : (processSell Q t).2 = Q := by
  by_cases h1 : lotsOf Q t.symbol = []
  · rw [processSell_noHoldings Q t h1]
  · by_cases h2 : totalAvailable (lotsOf Q t.symbol) < t.quantity
    · rw [processSell_insufficient Q t h1 h2]
    · rw [processSell_success Q t h1 h2] at h
      exact Except.noConfusion h

/-! ### The BUY path and sequences of operations -/

theorem getAdjustedPrice_buy (p : ℚ) (f : Option ℚ) :
    getAdjustedPrice "BUY" p f = p * (1 + normalizeFeePercent f / 100) := by
  simp [getAdjustedPrice]

theorem getAdjustedPrice_sell (p : ℚ) (f : Option ℚ) :
    getAdjustedPrice "SELL" p f = p * (1 - normalizeFeePercent f / 100) := by
  simp [getAdjustedPrice]

theorem getAdjustedPrice_buy_pos (p : ℚ) (f : Option ℚ) (hp : 0 < p) :
    0 < getAdjustedPrice "BUY" p f := by
  rw [getAdjustedPrice_buy]
  have := normalizeFeePercent_nonneg f
  have h1 : (0 : ℚ) < 1 + normalizeFeePercent f / 100 := by positivity
  positivity

theorem processBuy_invalid (Q : FIFOQueue) (t : Transaction)
    (h : t.symbol = "" ∨ t.quantity ≤ 0 ∨ t.adjustedPrice ≤ 0) :
    processBuy Q t = Q := by
  unfold processBuy
  rw [if_pos h]

theorem processBuy_valid (Q : FIFOQueue) (s : String) (q p : ℚ) (d : Int)
    (f : Option ℚ) (hs : upper s ≠ "") (hq : 0 < q)
    (hp : 0 < getAdjustedPrice "BUY" p (some (normalizeFeePercent f))) :
    processBuy Q (mkTx Q "BUY" s q p d f) =
      { Q with
          holdings :=
            setLots Q.holdings (upper s) (lotsOf Q (upper s) ++ [buyLot s q p d f]) } := by
  unfold processBuy
  rw [if_neg]
  · rfl
  · push_neg
    refine ⟨hs, hq, ?_⟩
    rw [mkTx_adjustedPrice, show upper "BUY" = "BUY" from by decide]
    exact hp

theorem lotsOf_setLots_self (Q : FIFOQueue) (s : String) (v : List Lot)
    (T : List Transaction) (G : List SaleResult) :
    lotsOf { holdings := setLots Q.holdings s v, transactions := T,
             realizedGains := G } s = v := by
  simp [lotsOf, getLots_setLots_self]

theorem lotsOf_setLots_ne (Q : FIFOQueue) (s x : String) (v : List Lot)
    (T : List Transaction) (G : List SaleResult) (hx : x ≠ s) :
    lotsOf { holdings := setLots Q.holdings s v, transactions := T,
             realizedGains := G } x = lotsOf Q x := by
  simp [lotsOf, getLots_setLots_ne _ _ _ _ hx]

/-- Per-symbol effect of a valid BUY through addTransaction. -/
theorem addBuy_lotsOf (Q : FIFOQueue) (s : String) (q p : ℚ) (d : Int)
    (f : Option ℚ) (hs : upper s ≠ "") (hq : 0 < q) (hp : 0 < p) (x : String) :
    lotsOf (addTransaction Q "BUY" s q p d f).2 x =
      if x = upper s then lotsOf Q (upper s) ++ [buyLot s q p d f]
      else lotsOf Q x := by
  rw [addTransaction_buy_eq]
  have hadj := getAdjustedPrice_buy_pos p (some (normalizeFeePercent f)) hp
  by_cases hx : x = upper s
  · subst hx
    simp only [if_true, processBuy_valid Q s q p d f hs hq hadj, if_pos rfl]
    exact lotsOf_setLots_self _ _ _ _ _
  · rw [if_neg hx]
    simp only [processBuy_valid Q s q p d f hs hq hadj]
    exact lotsOf_setLots_ne _ _ _ _ _ _ hx

theorem addBuy_transactions (Q : FIFOQueue) (s : String) (q p : ℚ) (d : Int)
    (f : Option ℚ) :
    (addTransaction Q "BUY" s q p d f).2.transactions =
      Q.transactions ++ [mkTx Q "BUY" s q p d f] := by
  rw [addTransaction_buy_eq]

theorem addBuy_realizedGains (Q : FIFOQueue) (s : String) (q p : ℚ) (d : Int)
    (f : Option ℚ) :
    (addTransaction Q "BUY" s q p d f).2.realizedGains = Q.realizedGains := by
  rw [addTransaction_buy_eq]
  exact processBuy_realizedGains Q _

theorem addBuy_ok (Q : FIFOQueue) (s : String) (q p : ℚ) (d : Int)
    (f : Option ℚ) :
    (addTransaction Q "BUY" s q p d f).1 =
      Except.ok (TxResult.tx (mkTx Q "BUY" s q p d f)) := by
  rw [addTransaction_buy_eq]

/-- Inversion of a successful SELL through addTransaction. -/
theorem addSell_ok_inv (Q : FIFOQueue) (s : String) (q p : ℚ) (d : Int)
    (f : Option ℚ) (r : TxResult)
    (h : (addTransaction Q "SELL" s q p d f).1 = Except.ok r) :
    lotsOf Q (upper s) ≠ [] ∧
    q ≤ totalAvailable (lotsOf Q (upper s)) ∧
    r = TxResult.sale (sellSale Q (mkTx Q "SELL" s q p d f)) ∧
    (addTransaction Q "SELL" s q p d f).2 =
      { Q with
          holdings :=
            setLots Q.holdings (upper s)
              (sellSurviving Q (mkTx Q "SELL" s q p d f))
          realizedGains :=
            Q.realizedGains ++ [sellSale Q (mkTx Q "SELL" s q p d f)] } := by
  have hsym : (mkTx Q "SELL" s q p d f).symbol = upper s := rfl
  have hqq : (mkTx Q "SELL" s q p d f).quantity = q := rfl
  by_cases h1 : lotsOf Q (upper s) = []
  · rw [addTransaction_sell_eq,
      processSell_noHoldings Q _ (by rw [hsym]; exact h1)] at h
    exact Except.noConfusion h
  · by_cases h2 : totalAvailable (lotsOf Q (upper s)) < q
    · rw [addTransaction_sell_eq,
        processSell_insufficient Q _ (by rw [hsym]; exact h1)
          (by rw [hsym, hqq]; exact h2)] at h
      exact Except.noConfusion h
    · have hh1 : lotsOf Q (mkTx Q "SELL" s q p d f).symbol ≠ [] := by
        rw [hsym]; exact h1
      have hh2 :
          ¬totalAvailable (lotsOf Q (mkTx Q "SELL" s q p d f).symbol) <
            (mkTx Q "SELL" s q p d f).quantity := by
        rw [hsym, hqq]; exact h2
      rw [addTransaction_sell_eq, processSell_success Q _ hh1 hh2] at h ⊢
      refine ⟨h1, not_lt.mp h2, ?_, ?_⟩
      · simpa [Except.map] using h.symm
      · rfl

/-- Effect of a successful SELL on the total available quantity of the
sold symbol, under the positivity invariant. -/
theorem addSell_totalAvailable (Q : FIFOQueue) (s : String) (q p : ℚ) (d : Int)
    (f : Option ℚ) (r : TxResult) (hg : goodQueue Q) (hq : 0 ≤ q)
    (h : (addTransaction Q "SELL" s q p d f).1 = Except.ok r) (x : String) :
    totalAvailable (lotsOf (addTransaction Q "SELL" s q p d f).2 x) =
      totalAvailable (lotsOf Q x) - (if upper s = x then q else 0) := by
  obtain ⟨h1, h2, _, hQ2⟩ := addSell_ok_inv Q s q p d f r h
  set t := mkTx Q "SELL" s q p d f with ht
  have hsym : t.symbol = upper s := rfl
  have htq : t.quantity = q := rfl
  by_cases hx : x = upper s
  · subst hx
    rw [hQ2, if_pos rfl, lotsOf_setLots_self]
    have hnn : ∀ l ∈ (consumeLots t.settlementDate t.quantity (lotsOf Q t.symbol)).2,
        0 ≤ l.remainingQuantity :=
      consumeLots_nonneg _ _ _ (fun l hl => le_of_lt (hg _ l hl))
    unfold sellSurviving
    rw [filter_totalAvailable _ hnn, consumeLots_totalAvailable,
      consumeLots_quantity_sum _ _ _ (htq ▸ hq) (by rw [hsym, htq]; exact h2)]
    rw [hsym, htq]
  · rw [hQ2, if_neg (fun he => hx he.symm), lotsOf_setLots_ne _ _ _ _ _ _ hx]
    ring

/-- A successful SELL preserves the positivity invariant. -/
theorem addSell_goodQueue (Q : FIFOQueue) (s : String) (q p : ℚ) (d : Int)
    (f : Option ℚ) (r : TxResult) (hg : goodQueue Q)
    (h : (addTransaction Q "SELL" s q p d f).1 = Except.ok r) :
    goodQueue (addTransaction Q "SELL" s q p d f).2 := by
  obtain ⟨h1, h2, _, hQ2⟩ := addSell_ok_inv Q s q p d f r h
  set t := mkTx Q "SELL" s q p d f with ht
  intro x l hl
  rw [hQ2] at hl
  by_cases hx : x = upper s
  · subst hx
    rw [lotsOf_setLots_self] at hl
    unfold sellSurviving at hl
    have := List.of_mem_filter hl
    simpa using this
  · rw [lotsOf_setLots_ne _ _ _ _ _ _ hx] at hl
    exact hg x l hl

/-- A valid BUY preserves the positivity invariant. -/
theorem addBuy_goodQueue (Q : FIFOQueue) (s : String) (q p : ℚ) (d : Int)
    (f : Option ℚ) (hs : upper s ≠ "") (hq : 0 < q) (hp : 0 < p)
    (hg : goodQueue Q) :
    goodQueue (addTransaction Q "BUY" s q p d f).2 := by
  intro x l hl
  rw [addBuy_lotsOf Q s q p d f hs hq hp x] at hl
  by_cases hx : x = upper s
  · rw [if_pos hx] at hl
    rcases List.mem_append.mp hl with hl | hl
    · exact hg _ l hl
    · rcases List.mem_singleton.mp hl with rfl
      exact hq
  · rw [if_neg hx] at hl
    exact hg x l hl

/-- Conservation induction: running a list of valid operations that all
succeed adds all bought and removes all sold quantity, per symbol, and
keeps every remainder positive. -/
theorem runOps_conservation :
    ∀ (ops : List Op) (Q Q2 : FIFOQueue),
      (∀ o ∈ ops, o.valid) → goodQueue Q → runOps ops Q = some Q2 →
      (∀ sym, totalAvailable (lotsOf Q2 sym) =
          totalAvailable (lotsOf Q sym) + boughtTotal sym ops - soldTotal sym ops)
      ∧ goodQueue Q2 := by
  intro ops
  induction ops with
  | nil =>
    intro Q Q2 _ hg hr
    obtain rfl : Q = Q2 := by simpa [runOps] using hr
    exact ⟨fun sym => by simp [boughtTotal, soldTotal], hg⟩
  | cons o rest ih =>
    intro Q Q2 hv hg hr
    have ho := hv o (List.mem_cons_self _ _)
    have hrest := fun o ho => hv o (List.mem_cons_of_mem _ ho)
    cases o with
    | buy s q p d f =>
      obtain ⟨hs, hq, hp⟩ := ho
      have hap : (Op.buy s q p d f).apply Q = addTransaction Q "BUY" s q p d f := rfl
      have hok := addBuy_ok Q s q p d f
      have hr2 : runOps rest (addTransaction Q "BUY" s q p d f).2 = some Q2 := by
        have hstep : runOps (Op.buy s q p d f :: rest) Q =
            runOps rest (addTransaction Q "BUY" s q p d f).2 := by
          rcases hA : addTransaction Q "BUY" s q p d f with ⟨r1, Q1⟩
          rw [hA] at hok
          simp only at hok
          subst hok
          simp [runOps, Op.apply, hA]
        rw [← hstep]
        exact hr
      have hg1 := addBuy_goodQueue Q s q p d f hs hq hp hg
      obtain ⟨hsum, hg2⟩ := ih _ _ hrest hg1 hr2
      refine ⟨fun sym => ?_, hg2⟩
      rw [hsum sym]
      have hstep := addBuy_lotsOf Q s q p d f hs hq hp sym
      by_cases hx : sym = upper s
      · subst hx
        rw [hstep, if_pos rfl]
        simp only [totalAvailable, List.map_append, List.sum_append, List.map_cons,
          List.sum_cons, List.map_nil, List.sum_nil, buyLot]
        simp only [boughtTotal, soldTotal, List.map_cons, List.sum_cons]
        rw [show buyQty (upper s) (Op.buy s q p d f) = q from by simp [buyQty],
          show sellQty (upper s) (Op.buy s q p d f) = 0 from by simp [sellQty]]
        ring
      · rw [hstep, if_neg hx]
        simp only [boughtTotal, soldTotal, List.map_cons, List.sum_cons, buyQty, sellQty,
          if_neg (Ne.symm hx)]
        ring
    | sell s q p d f =>
      have hq : 0 < q := ho
      have hap : (Op.sell s q p d f).apply Q = addTransaction Q "SELL" s q p d f := rfl
      rcases hA : addTransaction Q "SELL" s q p d f with ⟨r1, Q1⟩
      cases r1 with
      | error e =>
        exfalso
        have : runOps (Op.sell s q p d f :: rest) Q = none := by
          simp [runOps, Op.apply, hA]
        rw [this] at hr
        exact Option.noConfusion hr
      | ok r =>
        have hr2 : runOps rest Q1 = some Q2 := by
          have : runOps (Op.sell s q p d f :: rest) Q = runOps rest Q1 := by
            simp [runOps, Op.apply, hA]
          rw [← this]
          exact hr
        have hok : (addTransaction Q "SELL" s q p d f).1 = Except.ok r := by
          rw [hA]
        have hQ1 : Q1 = (addTransaction Q "SELL" s q p d f).2 := by rw [hA]
        have hg1 : goodQueue Q1 := by
          rw [hQ1]; exact addSell_goodQueue Q s q p d f r hg hok
        obtain ⟨hsum, hg2⟩ := ih _ _ hrest hg1 hr2
        refine ⟨fun sym => ?_, hg2⟩
        rw [hsum sym, hQ1,
          addSell_totalAvailable Q s q p d f r hg (le_of_lt hq) hok sym]
        simp only [boughtTotal, soldTotal, List.map_cons, List.sum_cons, buyQty, sellQty]
        by_cases hx : upper s = sym
        · simp only [hx, if_pos rfl]
          ring
        · simp only [if_neg hx]
          ring

/-! ### Settlement date arithmetic -/

theorem dayOfWeek_shift (d t : Int) : dayOfWeek (d + 7 * t) = dayOfWeek d := by
  unfold dayOfWeek
  omega

theorem isBusinessDay_shift (d t : Int) :
    isBusinessDay (d + 7 * t) = isBusinessDay d := by
  unfold isBusinessDay
  rw [dayOfWeek_shift]

theorem nextBusinessDay_shift (d t : Int) :
    nextBusinessDay (d + 7 * t) = nextBusinessDay d + 7 * t := by
  unfold nextBusinessDay
  rw [show d + 7 * t + 1 = (d + 1) + 7 * t from by ring, isBusinessDay_shift,
    show d + 7 * t + 2 = (d + 2) + 7 * t from by ring, isBusinessDay_shift]
  split_ifs <;> ring

theorem calculateSettlementDate_shift (d t : Int) :
    calculateSettlementDate (d + 7 * t) = calculateSettlementDate d + 7 * t := by
  unfold calculateSettlementDate
  rw [nextBusinessDay_shift, nextBusinessDay_shift]

theorem settleLoop_shift (fuel : Nat) :
    ∀ (d t : Int) (k : Nat),
      settleLoop fuel (d + 7 * t) k =
        (settleLoop fuel d k).map (fun x => x + 7 * t) := by
  induction fuel with
  | zero =>
    intro d t k
    by_cases hk : 2 ≤ k <;> simp [settleLoop, hk]
  | succ fuel ih =>
    intro d t k
    by_cases hk : 2 ≤ k
    · simp [settleLoop, hk]
    · simp only [settleLoop, hk, if_false,
        show d + 7 * t + 1 = (d + 1) + 7 * t from by ring, isBusinessDay_shift]
      by_cases hb : isBusinessDay (d + 1) <;> simp [hb, ih]

/-- Concrete check of the settlement computation on one representative of
each weekday residue class. -/
theorem settleCore (r : Int) (h0 : 0 ≤ r) (h7 : r < 7) :
    settleLoop 8 r 0 = some (calculateSettlementDate r) ∧
    isBusinessDay (calculateSettlementDate r) = true ∧
    r < calculateSettlementDate r := by
  interval_cases r <;> decide

/-! ### Claim theorems -/

theorem except_map_error_iff {α β γ : Type} (g : β → γ) (x : Except α β) (e : α) :
    x.map g = Except.error e ↔ x = Except.error e := by
  cases x <;> simp [Except.map]

theorem upper_A : upper "A" = "A" := by decide

theorem upper_OGDC : upper "OGDC" = "OGDC" := by decide

theorem ne_A_empty : ¬("A" : String) = "" := by decide

theorem ne_OGDC_empty : ¬("OGDC" : String) = "" := by decide

theorem ne_SELL_BUY : ¬("SELL" : String) = "BUY" := by decide

/-- Claim C10: for every trade date, the source settlement loop terminates
(bounded fuel suffices) and computes the trade date advanced by exactly two
business days (the closed form calculateSettlementDate), which always falls
on a weekday and is strictly later than the trade date.  Determinism is
immediate since the computation is a function of the date. -/
theorem claim10_settlement (d : Int) :
    settleLoop 8 d 0 = some (calculateSettlementDate d) ∧
    isBusinessDay (calculateSettlementDate d) = true ∧
    d < calculateSettlementDate d := by
  have hd : d % 7 + 7 * (d / 7) = d := Int.emod_add_ediv d 7
  have h0 : 0 ≤ d % 7 := Int.emod_nonneg d (by norm_num)
  have h7 : d % 7 < 7 := Int.emod_lt_of_pos d (by norm_num)
  obtain ⟨hs1, hs2, hs3⟩ := settleCore (d % 7) h0 h7
  refine ⟨?_, ?_, ?_⟩
  · rw [← hd, settleLoop_shift, hs1, calculateSettlementDate_shift]
    rfl
  · rw [← hd, calculateSettlementDate_shift, isBusinessDay_shift]
    exact hs2
  · rw [← hd, calculateSettlementDate_shift]
    omega

/-- Claim C4: a SELL through addTransaction throws exactly when the symbol
has no lots or the total remaining quantity is below the requested
quantity; and whenever it throws, the entire state (hence getHoldings,
getTransactions and the realized-gains trail) is the pre-call state. -/
theorem claim4_sell_failure (Q : FIFOQueue) (s : String) (q p : ℚ) (d : Int)
    (f : Option ℚ) :
    ((∃ e, (addTransaction Q "SELL" s q p d f).1 = Except.error e) ↔
      (lotsOf Q (upper s) = [] ∨ totalAvailable (lotsOf Q (upper s)) < q)) ∧
    (∀ e, (addTransaction Q "SELL" s q p d f).1 = Except.error e →
      (addTransaction Q "SELL" s q p d f).2 = Q) := by
  have hsym : (mkTx Q "SELL" s q p d f).symbol = upper s := rfl
  have hqq : (mkTx Q "SELL" s q p d f).quantity = q := rfl
  constructor
  · constructor
    · rintro ⟨e, he⟩
      rw [addTransaction_sell_eq] at he
      have hE : (processSell Q (mkTx Q "SELL" s q p d f)).1 = Except.error e :=
        (except_map_error_iff _ _ _).mp he
      have := (processSell_error_iff Q (mkTx Q "SELL" s q p d f)).mp ⟨e, hE⟩
      rwa [hsym, hqq] at this
    · intro h
      obtain ⟨e, he⟩ :=
        (processSell_error_iff Q (mkTx Q "SELL" s q p d f)).mpr
          (by rwa [hsym, hqq])
      refine ⟨e, ?_⟩
      rw [addTransaction_sell_eq]
      show (processSell Q (mkTx Q "SELL" s q p d f)).1.map TxResult.sale = Except.error e
      exact (except_map_error_iff _ _ _).mpr he
  · intro e he
    rw [addTransaction_sell_eq] at he ⊢
    have hE : (processSell Q (mkTx Q "SELL" s q p d f)).1 = Except.error e :=
      (except_map_error_iff _ _ _).mp he
    exact processSell_error_state Q (mkTx Q "SELL" s q p d f) e hE

/-- Witness for claim C4 at a concrete call: selling on an empty ledger. -/
theorem claim4_witness :
    ((∃ e, (addTransaction emptyQueue "SELL" "A" 1 2 0 none).1 = Except.error e) ↔
      (lotsOf emptyQueue (upper "A") = [] ∨
        totalAvailable (lotsOf emptyQueue (upper "A")) < 1)) ∧
    (∀ e, (addTransaction emptyQueue "SELL" "A" 1 2 0 none).1 = Except.error e →
      (addTransaction emptyQueue "SELL" "A" 1 2 0 none).2 = emptyQueue) :=
  claim4_sell_failure emptyQueue "A" 1 2 0 none

/-- Claim C7: every realized sale produced by a successful SELL (of a
nonnegative requested quantity) satisfies the capital-gain identity, the
cost-basis summation identity, and the quantity-sum identity. -/
theorem claim7_capital_gain (Q : FIFOQueue) (s : String) (q p : ℚ) (d : Int)
    (f : Option ℚ) (sres : SaleResult) (Q2 : FIFOQueue) (h0 : 0 ≤ q)
    (h : addTransaction Q "SELL" s q p d f = (Except.ok (TxResult.sale sres), Q2)) :
    sres.capitalGain = sres.saleProceeds - sres.totalCostBasis ∧
    sres.totalCostBasis = (sres.lotsUsed.map (fun u => u.costBasis)).sum ∧
    (sres.lotsUsed.map (fun u => u.quantity)).sum = sres.quantitySold := by
  have h1 : (addTransaction Q "SELL" s q p d f).1 = Except.ok (TxResult.sale sres) := by
    rw [h]
  obtain ⟨hne, hle, hr, _⟩ := addSell_ok_inv Q s q p d f (TxResult.sale sres) h1
  have hs : sres = sellSale Q (mkTx Q "SELL" s q p d f) := by
    simpa using hr
  subst hs
  refine ⟨rfl, rfl, ?_⟩
  show ((sellLotsUsed Q (mkTx Q "SELL" s q p d f)).map (fun u => u.quantity)).sum =
    (sellSale Q (mkTx Q "SELL" s q p d f)).quantitySold
  unfold sellLotsUsed
  exact consumeLots_quantity_sum _ _ _ h0 hle

/-- Witness for claim C7: a concrete buy of 10 then sale of 4. -/
theorem claim7_witness :
    ∃ sres Q2,
      addTransaction qA "SELL" "A" 4 6 1 none = (Except.ok (TxResult.sale sres), Q2) ∧
      (sres.capitalGain = sres.saleProceeds - sres.totalCostBasis ∧
        sres.totalCostBasis = (sres.lotsUsed.map (fun u => u.costBasis)).sum ∧
        (sres.lotsUsed.map (fun u => u.quantity)).sum = sres.quantitySold) := by
  have hrun : addTransaction qA "SELL" "A" 4 6 1 none =
      (Except.ok (TxResult.sale qASale), (addTransaction qA "SELL" "A" 4 6 1 none).2) := by
    norm_num [qA, qASale, emptyQueue, addTransaction, mkTx, processBuy, processSell,
      consumeLots, mkLotUsed, getHoldingPeriod, normalizeFeePercent, getAdjustedPrice,
      upper_BUY, upper_SELL, upper_A, lotsOf, getLots, setLots, totalAvailable,
      calculateSettlementDate, nextBusinessDay, isBusinessDay, dayOfWeek, Except.map,
      ne_A_empty, ne_SELL_BUY]
  exact ⟨qASale, (addTransaction qA "SELL" "A" 4 6 1 none).2, hrun,
    claim7_capital_gain qA "A" 4 6 1 none qASale
      (addTransaction qA "SELL" "A" 4 6 1 none).2 (by norm_num) hrun⟩

theorem normalizeFeePercent_idem (f : Option ℚ) :
    normalizeFeePercent (some (normalizeFeePercent f)) = normalizeFeePercent f := by
  have h := normalizeFeePercent_nonneg f
  show (if normalizeFeePercent f < 0 then 1 / 2 else normalizeFeePercent f) =
    normalizeFeePercent f
  rw [if_neg (not_lt.mpr h)]

/-- Claim C5 (amended): a BUY with nonpositive quantity or nonpositive
price creates no lot (holdings unchanged), but no failure reaches the
caller: addTransaction returns the transaction record normally and still
appends it to the audit trail. -/
theorem claim5_invalid_buy (Q : FIFOQueue) (s : String) (q p : ℚ) (d : Int)
    (f : Option ℚ) (h : q ≤ 0 ∨ p ≤ 0) :
    (addTransaction Q "BUY" s q p d f).1 =
      Except.ok (TxResult.tx (mkTx Q "BUY" s q p d f)) ∧
    (addTransaction Q "BUY" s q p d f).2.holdings = Q.holdings ∧
    (addTransaction Q "BUY" s q p d f).2.transactions =
      Q.transactions ++ [mkTx Q "BUY" s q p d f] := by
  have hinv : processBuy Q (mkTx Q "BUY" s q p d f) = Q := by
    apply processBuy_invalid
    rcases h with h | h
    · exact Or.inr (Or.inl h)
    · refine Or.inr (Or.inr ?_)
      rw [mkTx_adjustedPrice, show upper "BUY" = "BUY" from by decide,
        getAdjustedPrice_buy, normalizeFeePercent_idem]
      nlinarith [normalizeFeePercent_nonneg f]
  rw [addTransaction_buy_eq, hinv]
  exact ⟨rfl, rfl, rfl⟩

/-- Witness for claim C5 at a concrete invalid call: BUY of 0 shares. -/
theorem claim5_witness :
    ((0 : ℚ) ≤ 0 ∨ (10 : ℚ) ≤ 0) ∧
    ((addTransaction emptyQueue "BUY" "A" 0 10 0 none).1 =
        Except.ok (TxResult.tx (mkTx emptyQueue "BUY" "A" 0 10 0 none)) ∧
      (addTransaction emptyQueue "BUY" "A" 0 10 0 none).2.holdings =
        emptyQueue.holdings ∧
      (addTransaction emptyQueue "BUY" "A" 0 10 0 none).2.transactions =
        emptyQueue.transactions ++ [mkTx emptyQueue "BUY" "A" 0 10 0 none]) :=
  ⟨Or.inl le_rfl, claim5_invalid_buy emptyQueue "A" 0 10 0 none (Or.inl le_rfl)⟩

/-- Counterexample to claim C5 as stated: for the invalid BUY of 0 shares
at price 10, no failure is surfaced to the caller (the result is not an
error) and the transactions trail does not stay unchanged — a Transaction
record is committed. -/
theorem claim5_counterexample :
    ¬(∃ e, (addTransaction emptyQueue "BUY" "A" 0 10 0 none).1 = Except.error e) ∧
    getTransactions (addTransaction emptyQueue "BUY" "A" 0 10 0 none).2 ≠
      getTransactions emptyQueue := by
  constructor
  · rintro ⟨e, he⟩
    rw [addTransaction_buy_eq] at he
    exact Except.noConfusion he
  · rw [addTransaction_buy_eq]
    simp [getTransactions, emptyQueue]

/-- Evaluation of the concrete sale from qA: the returned value is the ok
sale record qASale. -/
theorem qA_sell_eval :
    addTransaction qA "SELL" "A" 4 6 1 none =
      (Except.ok (TxResult.sale qASale), (addTransaction qA "SELL" "A" 4 6 1 none).2) := by
  norm_num [qA, qASale, emptyQueue, addTransaction, mkTx, processBuy, processSell,
    consumeLots, mkLotUsed, getHoldingPeriod, normalizeFeePercent, getAdjustedPrice,
    upper_BUY, upper_SELL, upper_A, lotsOf, getLots, setLots, totalAvailable,
    calculateSettlementDate, nextBusinessDay, isBusinessDay, dayOfWeek, Except.map,
    ne_A_empty, ne_SELL_BUY]

/-- Claim C2 (evaluation at the failing input): after one BUY and one
successful SELL, the transactions audit trail still holds only the BUY
record with id 1 — the SELL path returns before the push, so no
Transaction record for the sale is appended. -/
theorem claim2_sell_not_recorded :
    (∃ sres Q2, addTransaction qA "SELL" "A" 4 6 1 none =
        (Except.ok (TxResult.sale sres), Q2)) ∧
    getTransactions (addTransaction qA "SELL" "A" 4 6 1 none).2 =
      getTransactions qA ∧
    (getTransactions qA).map (fun t => t.id) = [1] := by
  refine ⟨⟨qASale, (addTransaction qA "SELL" "A" 4 6 1 none).2, qA_sell_eval⟩, ?_, ?_⟩
  · norm_num [qA, emptyQueue, addTransaction, mkTx, processBuy, processSell,
      consumeLots, mkLotUsed, getHoldingPeriod, normalizeFeePercent, getAdjustedPrice,
      upper_BUY, upper_SELL, upper_A, lotsOf, getLots, setLots, totalAvailable,
      calculateSettlementDate, nextBusinessDay, isBusinessDay, dayOfWeek, Except.map,
      ne_A_empty, ne_SELL_BUY, getTransactions]
  · norm_num [qA, emptyQueue, addTransaction, mkTx, processBuy, upper_BUY, upper_A,
      normalizeFeePercent, getAdjustedPrice, lotsOf, getLots, setLots,
      ne_A_empty, getTransactions]

/-- Claim C1 (evaluation at the failing input): exporting and reimporting
the ledger after BUY 100 OGDC at 100 and SELL 50 OGDC at 150 (fee 0.5%)
preserves getHoldings and getTransactions but changes getRealizedGains:
the sale's total cost basis moves from 5025 to 5050.125 because importData
re-applies the fee factor to the already net consumption-record costs. -/
theorem claim1_roundtrip_fails :
    getHoldings (importData (exportData c1State)) = getHoldings c1State ∧
    getTransactions (importData (exportData c1State)) = getTransactions c1State ∧
    getRealizedGains (importData (exportData c1State)) ≠ getRealizedGains c1State ∧
    (getRealizedGains c1State).map (fun g => g.totalCostBasis) = [5025] ∧
    (getRealizedGains (importData (exportData c1State))).map
      (fun g => g.totalCostBasis) = [40401 / 8] := by
  norm_num [c1State, emptyQueue, addTransaction, mkTx, processBuy, processSell,
    consumeLots, mkLotUsed, getHoldingPeriod, normalizeFeePercent, getAdjustedPrice,
    upper_BUY, upper_SELL, upper_OGDC, lotsOf, getLots, setLots, totalAvailable,
    calculateSettlementDate, nextBusinessDay, isBusinessDay, dayOfWeek, Except.map,
    ne_OGDC_empty, ne_SELL_BUY, exportData, importData, importLot, importTransaction,
    importSale, getHoldings, getTransactions, getRealizedGains, summarizeLots]

theorem calculateSale_state (Q : FIFOQueue) (s : String) (q p : ℚ) (d : Int)
    (f : Option ℚ) : (calculateSale Q s q p d f).2 = Q := by
  simp only [calculateSale]
  split_ifs <;> rfl

theorem calculateSale_noHoldings (Q : FIFOQueue) (s : String) (q p : ℚ) (d : Int)
    (f : Option ℚ) (h : lotsOf Q (upper s) = []) :
    (calculateSale Q s q p d f).1 = Except.error (SellError.noHoldings (upper s)) := by
  simp only [calculateSale]
  rw [show (getLots Q.holdings (upper s)).getD [] = lotsOf Q (upper s) from rfl,
    if_pos h]

theorem calculateSale_insufficient (Q : FIFOQueue) (s : String) (q p : ℚ) (d : Int)
    (f : Option ℚ) (h1 : lotsOf Q (upper s) ≠ [])
    (h2 : totalAvailable (lotsOf Q (upper s)) < q) :
    (calculateSale Q s q p d f).1 =
      Except.error
        (SellError.insufficient (upper s) q (totalAvailable (lotsOf Q (upper s)))) := by
  simp only [calculateSale]
  rw [show (getLots Q.holdings (upper s)).getD [] = lotsOf Q (upper s) from rfl,
    if_neg h1, if_pos h2]

theorem calculateSale_success (Q : FIFOQueue) (s : String) (q p : ℚ) (d : Int)
    (f : Option ℚ) (h1 : lotsOf Q (upper s) ≠ [])
    (h2 : ¬totalAvailable (lotsOf Q (upper s)) < q) :
    (calculateSale Q s q p d f).1 =
      Except.ok
        { symbol := upper s
          quantitySold := q
          sellPrice := getAdjustedPrice "SELL" p (some (normalizeFeePercent f))
          grossSellPrice := p
          feePercent := normalizeFeePercent f
          saleProceeds := q * getAdjustedPrice "SELL" p (some (normalizeFeePercent f))
          totalCostBasis :=
            ((simulateConsume (calculateSettlementDate d) q (lotsOf Q (upper s))).map
              (fun u => u.costBasis)).sum
          capitalGain :=
            q * getAdjustedPrice "SELL" p (some (normalizeFeePercent f)) -
              ((simulateConsume (calculateSettlementDate d) q (lotsOf Q (upper s))).map
                (fun u => u.costBasis)).sum
          lotsUsed := simulateConsume (calculateSettlementDate d) q (lotsOf Q (upper s))
          saleDate := calculateSettlementDate d
          isSimulation := true } := by
  simp only [calculateSale]
  rw [show (getLots Q.holdings (upper s)).getD [] = lotsOf Q (upper s) from rfl,
    if_neg h1, if_neg h2]

/-- Claim C6: calculateSale is a pure simulation of the SELL path: it
never touches the state, it fails under exactly the same conditions (with
the same error data), and on success its symbol, quantity sold, net and
gross sell price, fee percent, lot consumption records, total cost basis,
sale proceeds, capital gain and sale date all equal those of the realized
sale that addTransaction would produce, with the result flagged as a
simulation. -/
theorem claim6_calculateSale_refines (Q : FIFOQueue) (s : String) (q p : ℚ)
    (d : Int) (f : Option ℚ) :
    (calculateSale Q s q p d f).2 = Q ∧
    ((∃ e, (addTransaction Q "SELL" s q p d f).1 = Except.error e ∧
        (calculateSale Q s q p d f).1 = Except.error e) ∨
      (∃ sl cs, (addTransaction Q "SELL" s q p d f).1 =
          Except.ok (TxResult.sale sl) ∧
        (calculateSale Q s q p d f).1 = Except.ok cs ∧
        cs.symbol = sl.symbol ∧ cs.quantitySold = sl.quantitySold ∧
        cs.sellPrice = sl.sellPrice ∧ cs.grossSellPrice = sl.grossSellPrice ∧
        cs.feePercent = sl.feePercent ∧ cs.lotsUsed = sl.lotsUsed ∧
        cs.totalCostBasis = sl.totalCostBasis ∧
        cs.saleProceeds = sl.saleProceeds ∧ cs.capitalGain = sl.capitalGain ∧
        cs.saleDate = sl.saleDate ∧ cs.isSimulation = true)) := by
  have hsym : (mkTx Q "SELL" s q p d f).symbol = upper s := rfl
  have hqq : (mkTx Q "SELL" s q p d f).quantity = q := rfl
  refine ⟨calculateSale_state Q s q p d f, ?_⟩
  by_cases h1 : lotsOf Q (upper s) = []
  · refine Or.inl ⟨SellError.noHoldings (upper s), ?_, ?_⟩
    · rw [addTransaction_sell_eq, processSell_noHoldings Q _ (by rw [hsym]; exact h1)]
      rfl
    · exact calculateSale_noHoldings Q s q p d f h1
  · by_cases h2 : totalAvailable (lotsOf Q (upper s)) < q
    · refine Or.inl
        ⟨SellError.insufficient (upper s) q (totalAvailable (lotsOf Q (upper s))),
          ?_, ?_⟩
      · rw [addTransaction_sell_eq,
          processSell_insufficient Q _ (by rw [hsym]; exact h1)
            (by rw [hsym, hqq]; exact h2)]
        rfl
      · exact calculateSale_insufficient Q s q p d f h1 h2
    · refine Or.inr ⟨sellSale Q (mkTx Q "SELL" s q p d f), _, ?_,
        calculateSale_success Q s q p d f h1 h2, ?_, ?_, ?_, ?_, ?_, ?_, ?_, ?_, ?_, ?_, rfl⟩
      · rw [addTransaction_sell_eq,
          processSell_success Q _ (by rw [hsym]; exact h1) (by rw [hsym, hqq]; exact h2)]
        rfl
      · exact hsym.symm
      · exact hqq.symm
      · show getAdjustedPrice "SELL" p (some (normalizeFeePercent f)) =
          (mkTx Q "SELL" s q p d f).adjustedPrice
        rw [mkTx_adjustedPrice, show upper "SELL" = "SELL" from by decide]
      · rfl
      · rfl
      · show simulateConsume (calculateSettlementDate d) q (lotsOf Q (upper s)) =
          sellLotsUsed Q (mkTx Q "SELL" s q p d f)
        unfold sellLotsUsed
        rw [simulateConsume_eq]
        rfl
      · show ((simulateConsume (calculateSettlementDate d) q (lotsOf Q (upper s))).map
            (fun u => u.costBasis)).sum =
          (sellSale Q (mkTx Q "SELL" s q p d f)).totalCostBasis
        show _ = ((sellLotsUsed Q (mkTx Q "SELL" s q p d f)).map
            (fun u => u.costBasis)).sum
        unfold sellLotsUsed
        rw [simulateConsume_eq]
        rfl
      · show q * getAdjustedPrice "SELL" p (some (normalizeFeePercent f)) =
          (mkTx Q "SELL" s q p d f).quantity * (mkTx Q "SELL" s q p d f).adjustedPrice
        rw [mkTx_adjustedPrice, hqq, show upper "SELL" = "SELL" from by decide]
      · show q * getAdjustedPrice "SELL" p (some (normalizeFeePercent f)) -
            ((simulateConsume (calculateSettlementDate d) q (lotsOf Q (upper s))).map
              (fun u => u.costBasis)).sum =
          (sellSale Q (mkTx Q "SELL" s q p d f)).capitalGain
        show _ = (mkTx Q "SELL" s q p d f).quantity *
            (mkTx Q "SELL" s q p d f).adjustedPrice -
            ((sellLotsUsed Q (mkTx Q "SELL" s q p d f)).map (fun u => u.costBasis)).sum
        unfold sellLotsUsed
        rw [simulateConsume_eq, mkTx_adjustedPrice, hqq,
          show upper "SELL" = "SELL" from by decide]
        rfl
      · rfl

theorem goodQueue_empty : goodQueue emptyQueue := by
  intro x l hl
  simp [lotsOf, emptyQueue, getLots] at hl

/-- Claim C8: over any list of valid BUY and successful SELL operations
from a fresh ledger, per symbol, total bought minus total sold equals the
sum of the remaining quantities of the surviving lots, and every surviving
lot keeps a strictly positive remaining quantity. -/
theorem claim8_conservation (ops : List Op) (h : ∀ o ∈ ops, o.valid)
    (Q : FIFOQueue) (hr : runOps ops emptyQueue = some Q) (sym : String) :
    boughtTotal sym ops - soldTotal sym ops = totalAvailable (lotsOf Q sym) ∧
    ∀ l ∈ lotsOf Q sym, 0 < l.remainingQuantity := by
  obtain ⟨hsum, hg⟩ := runOps_conservation ops emptyQueue Q h goodQueue_empty hr
  refine ⟨?_, hg sym⟩
  rw [hsum sym, show totalAvailable (lotsOf emptyQueue sym) = 0 from rfl]
  ring

/-- Witness for claim C8: buy 5 then sell 2 of a symbol. -/
theorem claim8_witness :
    ∃ Q, runOps [Op.buy "A" 5 3 0 none, Op.sell "A" 2 4 1 none] emptyQueue = some Q ∧
      (boughtTotal "A" [Op.buy "A" 5 3 0 none, Op.sell "A" 2 4 1 none] -
          soldTotal "A" [Op.buy "A" 5 3 0 none, Op.sell "A" 2 4 1 none] =
        totalAvailable (lotsOf Q "A") ∧
        ∀ l ∈ lotsOf Q "A", 0 < l.remainingQuantity) := by
  have hops : ∀ o ∈ [Op.buy "A" 5 3 0 none, Op.sell "A" 2 4 1 none], o.valid := by
    intro o ho
    rcases ho with _ | ⟨_, _ | ⟨_, h⟩⟩
    · exact ⟨by decide, by norm_num, by norm_num⟩
    · exact (by norm_num : (0 : ℚ) < 2)
    · cases h
  have hrun : runOps [Op.buy "A" 5 3 0 none, Op.sell "A" 2 4 1 none] emptyQueue =
      some q8Final := by
    norm_num [runOps, Op.apply, emptyQueue, addTransaction, mkTx, processBuy,
      processSell, consumeLots, mkLotUsed, getHoldingPeriod, normalizeFeePercent,
      getAdjustedPrice, upper_BUY, upper_SELL, upper_A, lotsOf, getLots, setLots,
      totalAvailable, calculateSettlementDate, nextBusinessDay, isBusinessDay,
      dayOfWeek, Except.map, ne_A_empty, ne_SELL_BUY, q8Final]
  exact ⟨q8Final, hrun, claim8_conservation _ hops _ hrun "A"⟩

/-- Per-symbol lots after a buy-only prefix: each valid BUY appends its
lot at the tail of the symbol's queue, other symbols are untouched. -/
theorem runBuys_lotsOf (sym : String) (hs : upper sym ≠ "") :
    ∀ (bs : List BuySpec) (Q : FIFOQueue),
      (∀ b ∈ bs, 0 < b.quantity ∧ 0 < b.price) → ∀ x,
      lotsOf (runBuys sym bs Q) x =
        if x = upper sym then lotsOf Q x ++ bs.map (buySpecLot sym)
        else lotsOf Q x := by
  intro bs
  induction bs with
  | nil =>
    intro Q _ x
    by_cases hx : x = upper sym <;> simp [runBuys, hx]
  | cons b rest ih =>
    intro Q hv x
    have hb := hv b (List.mem_cons_self _ _)
    have hrest := fun b2 hb2 => hv b2 (List.mem_cons_of_mem _ hb2)
    show lotsOf (runBuys sym rest
      (addTransaction Q "BUY" sym b.quantity b.price b.date b.fee).2) x = _
    rw [ih _ hrest x]
    by_cases hx : x = upper sym
    · rw [if_pos hx, if_pos hx,
        addBuy_lotsOf Q sym b.quantity b.price b.date b.fee hs hb.1 hb.2 x, if_pos hx]
      subst hx
      simp [List.append_assoc, buySpecLot]
    · rw [if_neg hx, if_neg hx,
        addBuy_lotsOf Q sym b.quantity b.price b.date b.fee hs hb.1 hb.2 x, if_neg hx]

theorem buySpec_totalAvailable (sym : String) (bs : List BuySpec) :
    totalAvailable (bs.map (buySpecLot sym)) = (bs.map (fun b => b.quantity)).sum := by
  induction bs with
  | nil => rfl
  | cons b rest ih =>
    simp only [List.map_cons, totalAvailable, List.sum_cons] at ih ⊢
    rw [show (buySpecLot sym b).remainingQuantity = b.quantity from rfl, ih]

/-- Claim C3: for any sequence of valid BUYs on a symbol followed by a
SELL of at most the total quantity bought, the SELL succeeds, consumes
lots strictly from the head of the symbol's sequence in order (same
purchase dates and unit costs as the leading lots; every consumed lot but
possibly the last taken in full; head order means oldest settlement first
whenever the queue's settlement dates are ascending), the consumed
quantities sum to the quantity sold, every surviving lot keeps a positive
remainder (fully consumed lots are removed), and the surviving quantity is
the total bought minus the quantity sold. -/
theorem claim3_fifo_order (sym : String) (hs : upper sym ≠ "") (bs : List BuySpec)
    (hbs : ∀ b ∈ bs, 0 < b.quantity ∧ 0 < b.price) (q p : ℚ) (d : Int)
    (f : Option ℚ) (hq : 0 < q) (hle : q ≤ (bs.map (fun b => b.quantity)).sum) :
    ∃ sres Q2,
      addTransaction (runBuys sym bs emptyQueue) "SELL" sym q p d f =
        (Except.ok (TxResult.sale sres), Q2) ∧
      sres.lotsUsed.map (fun u => u.purchaseDate) =
        ((bs.map (buySpecLot sym)).take sres.lotsUsed.length).map
          (fun l => l.purchaseDate) ∧
      sres.lotsUsed.map (fun u => u.costPerShare) =
        ((bs.map (buySpecLot sym)).take sres.lotsUsed.length).map
          (fun l => l.price) ∧
      (sres.lotsUsed.map (fun u => u.quantity)).dropLast =
        ((bs.map (buySpecLot sym)).map (fun l => l.remainingQuantity)).take
          (sres.lotsUsed.length - 1) ∧
      (sres.lotsUsed.map (fun u => u.quantity)).sum = q ∧
      (List.Chain' (fun a b => a ≤ b)
          ((bs.map (buySpecLot sym)).map (fun l => l.purchaseDate)) →
        List.Chain' (fun a b => a ≤ b)
          (sres.lotsUsed.map (fun u => u.purchaseDate))) ∧
      (∀ l ∈ lotsOf Q2 (upper sym), 0 < l.remainingQuantity) ∧
      totalAvailable (lotsOf Q2 (upper sym)) =
        (bs.map (fun b => b.quantity)).sum - q := by
  set Q0 := runBuys sym bs emptyQueue with hQ0
  have hlots : lotsOf Q0 (upper sym) = bs.map (buySpecLot sym) := by
    rw [hQ0, runBuys_lotsOf sym hs bs emptyQueue hbs (upper sym), if_pos rfl]
    simp [lotsOf, emptyQueue, getLots]
  have hgoodB : ∀ l ∈ bs.map (buySpecLot sym), 0 < l.remainingQuantity := by
    intro l hl
    rcases List.mem_map.mp hl with ⟨b, hb, rfl⟩
    exact (hbs b hb).1
  have hta : totalAvailable (lotsOf Q0 (upper sym)) =
      (bs.map (fun b => b.quantity)).sum := by
    rw [hlots, buySpec_totalAvailable]
  have hne : lotsOf Q0 (upper sym) ≠ [] := by
    rw [hlots]
    intro hnil
    have hbs0 : bs = [] := List.map_eq_nil_iff.mp hnil
    rw [hbs0] at hle
    simp at hle
    linarith
  have h2 : ¬totalAvailable (lotsOf Q0 (upper sym)) < q := by
    rw [hta]
    exact not_lt.mpr hle
  set t := mkTx Q0 "SELL" sym q p d f with ht
  have hsym2 : t.symbol = upper sym := rfl
  have hqq : t.quantity = q := rfl
  have hsell := processSell_success Q0 t (by rw [hsym2]; exact hne)
    (by rw [hsym2, hqq]; exact h2)
  have hok : (addTransaction Q0 "SELL" sym q p d f).1 =
      Except.ok (TxResult.sale (sellSale Q0 t)) := by
    rw [addTransaction_sell_eq, hsell]
    rfl
  have hgQ0 : goodQueue Q0 := by
    intro x l hl
    rw [hQ0, runBuys_lotsOf sym hs bs emptyQueue hbs x] at hl
    by_cases hx : x = upper sym
    · rw [if_pos hx] at hl
      simp only [lotsOf, emptyQueue, getLots, Option.getD_none, List.nil_append] at hl
      exact hgoodB l hl
    · rw [if_neg hx] at hl
      simp [lotsOf, emptyQueue, getLots] at hl
  have hused : (sellSale Q0 t).lotsUsed =
      (consumeLots t.settlementDate q (bs.map (buySpecLot sym))).1 := by
    show sellLotsUsed Q0 t = _
    unfold sellLotsUsed
    rw [hsym2, hlots, hqq]
  have hC := consumeLots_head_order t.settlementDate (bs.map (buySpecLot sym)) q hgoodB
  refine ⟨sellSale Q0 t, (processSell Q0 t).2, ?_, ?_, ?_, ?_, ?_, ?_, ?_, ?_⟩
  · rw [addTransaction_sell_eq, hsell]
    rfl
  · rw [hused]
    have h1 := congrArg (List.map Prod.fst) hC
    simp only [List.map_map] at h1
    exact h1
  · rw [hused]
    have h1 := congrArg (List.map Prod.snd) hC
    simp only [List.map_map] at h1
    exact h1
  · rw [hused]
    exact consumeLots_full_head t.settlementDate (bs.map (buySpecLot sym)) q hgoodB
  · rw [hused]
    exact consumeLots_quantity_sum t.settlementDate (bs.map (buySpecLot sym)) q
      hq.le (by rw [buySpec_totalAvailable]; exact hle)
  · intro hch
    rw [hused]
    have h1 := congrArg (List.map Prod.fst) hC
    simp only [List.map_map] at h1
    have h1x : (consumeLots t.settlementDate q (bs.map (buySpecLot sym))).1.map
        (fun u => u.purchaseDate) =
        ((bs.map (buySpecLot sym)).take
          (consumeLots t.settlementDate q (bs.map (buySpecLot sym))).1.length).map
          (fun l => l.purchaseDate) := h1
    rw [h1x, List.map_take]
    exact List.Chain'.take hch _
  · intro l hl
    have hgood2 := addSell_goodQueue Q0 sym q p d f (TxResult.sale (sellSale Q0 t))
      hgQ0 hok
    apply hgood2 (upper sym) l
    rw [addTransaction_sell_eq]
    exact hl
  · have hta2 := addSell_totalAvailable Q0 sym q p d f
      (TxResult.sale (sellSale Q0 t)) hgQ0 hq.le hok (upper sym)
    rw [show (processSell Q0 t).2 = (addTransaction Q0 "SELL" sym q p d f).2 from by
      rw [addTransaction_sell_eq], hta2, hta, if_pos rfl]

/-- Witness for claim C3: buy 10 at 5 and 20 at 7, then sell 15. -/
theorem claim3_witness :
    ∃ sres Q2,
      addTransaction
          (runBuys "A" [⟨10, 5, 0, none⟩, ⟨20, 7, 1, none⟩] emptyQueue)
          "SELL" "A" 15 9 3 none = (Except.ok (TxResult.sale sres), Q2) ∧
      sres.lotsUsed.map (fun u => u.purchaseDate) =
        (([⟨10, 5, 0, none⟩, ⟨20, 7, 1, none⟩].map (buySpecLot "A")).take
          sres.lotsUsed.length).map (fun l => l.purchaseDate) ∧
      sres.lotsUsed.map (fun u => u.costPerShare) =
        (([⟨10, 5, 0, none⟩, ⟨20, 7, 1, none⟩].map (buySpecLot "A")).take
          sres.lotsUsed.length).map (fun l => l.price) ∧
      (sres.lotsUsed.map (fun u => u.quantity)).dropLast =
        (([⟨10, 5, 0, none⟩, ⟨20, 7, 1, none⟩].map (buySpecLot "A")).map
          (fun l => l.remainingQuantity)).take (sres.lotsUsed.length - 1) ∧
      (sres.lotsUsed.map (fun u => u.quantity)).sum = 15 ∧
      (List.Chain' (fun a b => a ≤ b)
          (([⟨10, 5, 0, none⟩, ⟨20, 7, 1, none⟩].map (buySpecLot "A")).map
            (fun l => l.purchaseDate)) →
        List.Chain' (fun a b => a ≤ b)
          (sres.lotsUsed.map (fun u => u.purchaseDate))) ∧
      (∀ l ∈ lotsOf Q2 (upper "A"), 0 < l.remainingQuantity) ∧
      totalAvailable (lotsOf Q2 (upper "A")) =
        ([(⟨10, 5, 0, none⟩ : BuySpec), ⟨20, 7, 1, none⟩].map
          (fun b => b.quantity)).sum - 15 :=
  claim3_fifo_order "A" (by decide) [⟨10, 5, 0, none⟩, ⟨20, 7, 1, none⟩]
    (by intro b hb; fin_cases hb <;> exact ⟨by norm_num, by norm_num⟩)
    15 9 3 none (by norm_num) (by norm_num)

/-- Claim C9: the worked example of the specification, for every start
day D: BUY 100 OGDC at 100 (fee 0.5) on D, BUY 100 OGDC at 120 with the
fee omitted (0.5 default) on D+10, SELL 150 OGDC at 150 (fee 0.5) on
D+400 consumes 100 units at net cost 100.5 and 50 units at net cost
120.6, for total cost basis 16080, net proceeds 22387.5 and capital gain
6307.5. -/
theorem claim9_worked_example (D : Int) :
    ∃ sres Q2,
      addTransaction
          (addTransaction
            (addTransaction emptyQueue "BUY" "OGDC" 100 100 D (some (1 / 2))).2
            "BUY" "OGDC" 100 120 (D + 10) none).2
          "SELL" "OGDC" 150 150 (D + 400) (some (1 / 2)) =
        (Except.ok (TxResult.sale sres), Q2) ∧
      sres.lotsUsed.map (fun u => (u.quantity, u.costPerShare)) =
        [(100, 201 / 2), (50, 603 / 5)] ∧
      sres.totalCostBasis = 16080 ∧
      sres.saleProceeds = 44775 / 2 ∧
      sres.capitalGain = 12615 / 2 := by
  set Q0 := (addTransaction
      (addTransaction emptyQueue "BUY" "OGDC" 100 100 D (some (1 / 2))).2
      "BUY" "OGDC" 100 120 (D + 10) none).2 with hQ0
  have hlots : lotsOf Q0 "OGDC" =
      [{ quantity := 100
         price := 201 / 2
         grossPrice := 100
         feePercent := 1 / 2
         purchaseDate := calculateSettlementDate D
         remainingQuantity := 100 },
       { quantity := 100
         price := 603 / 5
         grossPrice := 120
         feePercent := 1 / 2
         purchaseDate := calculateSettlementDate (D + 10)
         remainingQuantity := 100 }] := by
    rw [hQ0]
    norm_num [emptyQueue, addTransaction, mkTx, processBuy, normalizeFeePercent,
      getAdjustedPrice, upper_BUY, upper_OGDC, lotsOf, getLots, setLots,
      ne_OGDC_empty]
  set t := mkTx Q0 "SELL" "OGDC" 150 150 (D + 400) (some (1 / 2)) with ht
  have hsymt : t.symbol = "OGDC" := by rw [ht, mkTx_symbol, upper_OGDC]
  have hne : lotsOf Q0 t.symbol ≠ [] := by
    rw [hsymt, hlots]
    simp
  have h2 : ¬totalAvailable (lotsOf Q0 t.symbol) < t.quantity := by
    rw [hsymt, hlots, show t.quantity = 150 from rfl]
    norm_num [totalAvailable]
  have hsell := processSell_success Q0 t hne h2
  have hsale : sellSale Q0 t =
      { symbol := "OGDC"
        quantitySold := 150
        sellPrice := 597 / 4
        grossSellPrice := 150
        feePercent := 1 / 2
        saleProceeds := 44775 / 2
        totalCostBasis := 16080
        capitalGain := 12615 / 2
        lotsUsed := [{ purchaseDate := calculateSettlementDate D
                       quantity := 100
                       costPerShare := 201 / 2
                       costBasis := 10050
                       holdingPeriod :=
                         getHoldingPeriod (calculateSettlementDate D)
                           (calculateSettlementDate (D + 400)) },
                     { purchaseDate := calculateSettlementDate (D + 10)
                       quantity := 50
                       costPerShare := 603 / 5
                       costBasis := 6030
                       holdingPeriod :=
                         getHoldingPeriod (calculateSettlementDate (D + 10))
                           (calculateSettlementDate (D + 400)) }]
        saleDate := calculateSettlementDate (D + 400)
        isSimulation := false } := by
    unfold sellSale sellLotsUsed
    rw [hsymt, hlots]
    norm_num [ht, mkTx, normalizeFeePercent, getAdjustedPrice, upper_SELL,
      upper_OGDC, ne_SELL_BUY, consumeLots, mkLotUsed, min_def]
  refine ⟨sellSale Q0 t, (processSell Q0 t).2, ?_, ?_, ?_, ?_, ?_⟩
  · rw [addTransaction_sell_eq, ← ht, hsell]
    rfl
  · rw [hsale]
    norm_num
  · rw [hsale]
  · rw [hsale]
  · rw [hsale]

end Pakfolio
